import Mathlib

/-!
MurmurHash3 x64-128 streaming digest (`murmur128.go`).

A shallow embedding of the 128-bit digest of `m3db/murmur3` and theorems about
its streaming writer, block mixer, finalization and convenience API.

Modelling conventions.

* A Go `byte` is a `Fin 256`; a `[]byte` is a `List Byte`; `[16]byte` is a
  function `Fin 16 → Byte`.
* A Go `uint64` is a `Nat`; every arithmetic operation that can leave the
  64-bit range is followed by an explicit `% 2 ^ 64` (`u64`).
* A Go `int` is an `Int` on a 64-bit target; the one addition that can
  overflow (`d.clen += n`) wraps in two's complement (`wrapInt`).
* A panic (index out of range, slice bounds out of range, the explicit
  `panic` of `bmixbuf`) is `none`.
* `Write` reads `p` through total list operations; `WriteChecked` repeats it
  with every index and slice expression on `p` checked against the length, and
  the two are proved equal.
-/

namespace Murmur3

/-- A Go `byte`. -/
abbrev Byte := Fin 256

/-- Truncation of a natural number to a Go `uint64`. -/
@[irreducible]
def u64 (x : Nat) : Nat := x % 2 ^ 64

/-- Go `int` arithmetic on a 64-bit target: wrap into `[-2^63, 2^63)`. -/
@[irreducible]
def wrapInt (x : Int) : Int := (x + 2 ^ 63) % 2 ^ 64 - 2 ^ 63

/-- Go conversion `uint64(x)` of an `int`: the two's-complement bit pattern. -/
@[irreducible]
def toUint64 (x : Int) : Nat := (x % 2 ^ 64).toNat

/-- Go conversion `byte(x)` of a `uint64`: the low eight bits. -/
def toByte (x : Nat) : Byte := ⟨x % 256, Nat.mod_lt x (by decide)⟩

def c1_128 : Nat := 0x87c37b91114253d5

def c2_128 : Nat := 0x4cf5ad432745937f

/-- Modelled from the spec: the embedded struct `digest` is declared outside
`murmur128.go`. Section 3 of the spec gives its fields: the 32-bit `seed`, the
16-byte pending buffer `buf` with its fill level `tail`, and the running byte
count `clen`. `tail` and `clen` are Go `int`s (they are compared with
`d.Size()` and added to `len(p)` in `murmur128.go`). -/
structure digest where
  clen : Int
  tail : Int
  buf : Fin 16 → Byte
  seed : Nat

/-- The 128-bit digest: the embedded `digest` and the two running hash words. -/
structure Digest128 extends digest where
  h1 : Nat
  h2 : Nat

/-- Read `buf[i]` for a natural index (indices of 16 and more do not occur). -/
def bufAt (buf : Fin 16 → Byte) (i : Nat) : Nat :=
  if h : i < 16 then (buf ⟨i, h⟩).val else 0

/-- Modelled from the spec: `digest.loadUint64` is declared outside
`murmur128.go`. Section 4.2 of the spec: the word is "decoded from 8
consecutive bytes in little-endian order (least-significant byte first)
regardless of host byte order"; `idx` selects the word at byte offset
`8 * idx` of `buf`. -/
def digest.loadUint64 (d : digest) (idx : Nat) : Nat :=
  bufAt d.buf (8 * idx) ||| bufAt d.buf (8 * idx + 1) <<< 8
    ||| bufAt d.buf (8 * idx + 2) <<< 16 ||| bufAt d.buf (8 * idx + 3) <<< 24
    ||| bufAt d.buf (8 * idx + 4) <<< 32 ||| bufAt d.buf (8 * idx + 5) <<< 40
    ||| bufAt d.buf (8 * idx + 6) <<< 48 ||| bufAt d.buf (8 * idx + 7) <<< 56

/-- The `uint64` found at byte offset `off` of `p` by the pointer cast
`(*[2]uint64)(unsafe.Pointer(&p[off]))` of `bmix`: the value whose eight
memory bytes are `p[off], …, p[off+7]`. The targets this package runs on
(amd64, arm64) store the least-significant byte first. -/
def loadWord (p : List Byte) (off : Nat) : Nat :=
  ((p.drop off).take 8).foldr (fun b acc => b.val + 256 * acc) 0

/-- `New128WithSeed`. -/
def New128WithSeed (seed : Nat) : Digest128 :=
  let s := seed
  { clen := 0, tail := 0, buf := fun _ => 0, seed := seed, h1 := s, h2 := s }

/-- `New128`. -/
def New128 : Digest128 := New128WithSeed 0

/-- `Digest128.Size`. -/
def Digest128.Size (_d : Digest128) : Int := 16

/-- `fmix64`. -/
def fmix64 (k : Nat) : Nat :=
  let k := k ^^^ (k >>> 33)
  let k := u64 (k * 0xff51afd7ed558ccd)
  let k := k ^^^ (k >>> 33)
  let k := u64 (k * 0xc4ceb9fe1a85ec53)
  let k := k ^^^ (k >>> 33)
  k

/-- The body of the loop of `bmix` (lines 57-73): the accumulators after
mixing in the two loaded words `k1`, `k2`. -/
def bmixBody (h1 h2 k1 k2 : Nat) : Nat × Nat :=
  let k1 := u64 (k1 * c1_128)
  let k1 := u64 (k1 <<< 31) ||| (k1 >>> 33)
  let k1 := u64 (k1 * c2_128)
  let h1 := h1 ^^^ k1
  let h1 := u64 (h1 <<< 27) ||| (h1 >>> 37)
  let h1 := u64 (h1 + h2)
  let h1 := u64 (u64 (h1 * 5) + 0x52dce729)
  let k2 := u64 (k2 * c2_128)
  let k2 := u64 (k2 <<< 33) ||| (k2 >>> 31)
  let k2 := u64 (k2 * c1_128)
  let h2 := h2 ^^^ k2
  let h2 := u64 (h2 <<< 31) ||| (h2 >>> 33)
  let h2 := u64 (h2 + h1)
  let h2 := u64 (u64 (h2 * 5) + 0x38495ab5)
  (h1, h2)

/-- The loop of `bmix`, `for i := 0; i < nblocks; i++`: in iteration `i`,
`t[0]` and `t[1]` are the words at byte offsets `i*16` and `i*16 + 8` of `p`. -/
def bmixLoop (p : List Byte) (nblocks : Nat) (h1 h2 : Nat) : Nat × Nat :=
  (List.range nblocks).foldl
    (fun h i => bmixBody h.1 h.2 (loadWord p (i * 16)) (loadWord p (i * 16 + 8))) (h1, h2)

/-- `Digest128.bmix`: mix the complete 16-byte blocks of `p`, return the rest. -/
def Digest128.bmix (d : Digest128) (p : List Byte) : Digest128 × List Byte :=
  let nblocks := p.length / 16
  let h := bmixLoop p nblocks d.h1 d.h2
  ({ d with h1 := h.1, h2 := h.2 }, p.drop (nblocks * 16))

/-- `Digest128.bmixbuf`: mix the full buffer; panics unless `tail = 16`. -/
def Digest128.bmixbuf (d : Digest128) : Option Digest128 :=
  let h1 := d.h1
  let h2 := d.h2
  if d.tail ≠ d.Size then none
  else
    let k1 := d.loadUint64 0
    let k2 := d.loadUint64 1
    let k1 := u64 (k1 * c1_128)
    let k1 := u64 (k1 <<< 31) ||| (k1 >>> 33)
    let k1 := u64 (k1 * c2_128)
    let h1 := h1 ^^^ k1
    let h1 := u64 (h1 <<< 27) ||| (h1 >>> 37)
    let h1 := u64 (h1 + h2)
    let h1 := u64 (u64 (h1 * 5) + 0x52dce729)
    let k2 := u64 (k2 * c2_128)
    let k2 := u64 (k2 <<< 33) ||| (k2 >>> 31)
    let k2 := u64 (k2 * c1_128)
    let h2 := h2 ^^^ k2
    let h2 := u64 (h2 <<< 31) ||| (h2 >>> 33)
    let h2 := u64 (h2 + h1)
    let h2 := u64 (u64 (h2 * 5) + 0x38495ab5)
    some { d with h1 := h1, h2 := h2, tail := 0 }

/-- The tail switch of `Sum128`. `t` is `d.tail & 15`; with `fallthrough` in
every case, the statements under `case c` run exactly when `c ≤ t`. Returns
the accumulators `(h1, h2)` after the switch. -/
def tailSwitch (buf : Fin 16 → Byte) (t : Int) (h1 h2 : Nat) : Nat × Nat :=
  let k1 := 0
  let k2 := 0
  let k2 := if 15 ≤ t then k2 ^^^ u64 (bufAt buf 14 <<< 48) else k2
  let k2 := if 14 ≤ t then k2 ^^^ u64 (bufAt buf 13 <<< 40) else k2
  let k2 := if 13 ≤ t then k2 ^^^ u64 (bufAt buf 12 <<< 32) else k2
  let k2 := if 12 ≤ t then k2 ^^^ u64 (bufAt buf 11 <<< 24) else k2
  let k2 := if 11 ≤ t then k2 ^^^ u64 (bufAt buf 10 <<< 16) else k2
  let k2 := if 10 ≤ t then k2 ^^^ u64 (bufAt buf 9 <<< 8) else k2
  let h2 :=
    if 9 ≤ t then
      let k2 := k2 ^^^ u64 (bufAt buf 8 <<< 0)
      let k2 := u64 (k2 * c2_128)
      let k2 := u64 (k2 <<< 33) ||| (k2 >>> 31)
      let k2 := u64 (k2 * c1_128)
      h2 ^^^ k2
    else h2
  let k1 := if 8 ≤ t then k1 ^^^ u64 (bufAt buf 7 <<< 56) else k1
  let k1 := if 7 ≤ t then k1 ^^^ u64 (bufAt buf 6 <<< 48) else k1
  let k1 := if 6 ≤ t then k1 ^^^ u64 (bufAt buf 5 <<< 40) else k1
  let k1 := if 5 ≤ t then k1 ^^^ u64 (bufAt buf 4 <<< 32) else k1
  let k1 := if 4 ≤ t then k1 ^^^ u64 (bufAt buf 3 <<< 24) else k1
  let k1 := if 3 ≤ t then k1 ^^^ u64 (bufAt buf 2 <<< 16) else k1
  let k1 := if 2 ≤ t then k1 ^^^ u64 (bufAt buf 1 <<< 8) else k1
  let h1 :=
    if 1 ≤ t then
      let k1 := k1 ^^^ u64 (bufAt buf 0 <<< 0)
      let k1 := u64 (k1 * c1_128)
      let k1 := u64 (k1 <<< 31) ||| (k1 >>> 33)
      let k1 := u64 (k1 * c2_128)
      h1 ^^^ k1
    else h1
  (h1, h2)

/-- `Digest128.Sum128`. The mask `d.tail & 15` of a two's-complement `int` is
its residue modulo 16. -/
def Digest128.Sum128 (d : Digest128) : Nat × Nat :=
  let h := tailSwitch d.buf (d.tail % 16) d.h1 d.h2
  let h1 := h.1
  let h2 := h.2
  let h1 := h1 ^^^ toUint64 d.clen
  let h2 := h2 ^^^ toUint64 d.clen
  let h1 := u64 (h1 + h2)
  let h2 := u64 (h2 + h1)
  let h1 := fmix64 h1
  let h2 := fmix64 h2
  let h1 := u64 (h1 + h2)
  let h2 := u64 (h2 + h1)
  (h1, h2)

/-- `Digest128.Sum`. -/
def Digest128.Sum (d : Digest128) (b : List Byte) : List Byte :=
  let h := d.Sum128
  let h1 := h.1
  let h2 := h.2
  b ++ [toByte (h1 >>> 56), toByte (h1 >>> 48), toByte (h1 >>> 40), toByte (h1 >>> 32),
        toByte (h1 >>> 24), toByte (h1 >>> 16), toByte (h1 >>> 8), toByte h1,
        toByte (h2 >>> 56), toByte (h2 >>> 48), toByte (h2 >>> 40), toByte (h2 >>> 32),
        toByte (h2 >>> 24), toByte (h2 >>> 16), toByte (h2 >>> 8), toByte h2]

/-- The assignment `d.buf[i] = b`; an index outside `0..15` panics. -/
def Digest128.store (d : Digest128) (i : Int) (b : Byte) : Option Digest128 :=
  if 0 ≤ i ∧ i < 16 then
    some { d with buf := fun j => if (j.val : Int) = i then b else d.buf j }
  else none

/-- The two loops of `Write` that append bytes to the buffer:
`for i := 0; i < len(p); i++ { d.buf[d.tail] = p[i]; d.tail++ }`. -/
def Digest128.fill (d : Digest128) : List Byte → Option Digest128
  | [] => some d
  | b :: rest =>
    match d.store d.tail b with
    | none => none
    | some d1 => Digest128.fill { d1 with tail := d1.tail + 1 } rest

/-- The last loop of `Write`, `for i := 0; i < d.tail; i++ { d.buf[i] = tail[i] }`,
entered with `d.tail = len(tail)`; `i` is the loop counter and the list holds
`tail[i:]`. -/
def Digest128.keep (d : Digest128) : List Byte → Int → Option Digest128
  | [], _ => some d
  | b :: rest, i =>
    match d.store i b with
    | none => none
    | some d1 => Digest128.keep d1 rest (i + 1)

/-- The end of `Write`, from `d, tail := d.bmix(p)` on. -/
def Digest128.writeBlocks (d : Digest128) (p : List Byte) : Option Digest128 :=
  let r := d.bmix p
  let d := r.1
  let tail := r.2
  let d := { d with tail := (tail.length : Int) }
  d.keep tail 0

/-- `Digest128.Write`. -/
def Digest128.Write (d : Digest128) (p : List Byte) : Option Digest128 :=
  let n : Int := p.length
  let d := { d with clen := wrapInt (d.clen + n) }
  if 0 < d.tail then
    let nfree := d.Size - d.tail
    if (p.length : Int) ≤ nfree then
      match d.fill p with
      | none => none
      | some d => if (p.length : Int) = nfree then d.bmixbuf else some d
    else
      -- `add := p[:nfree]` panics when `nfree` is negative
      if nfree < 0 then none
      else
        let add := p.take nfree.toNat
        match d.fill add with
        | none => none
        | some d =>
          match d.bmixbuf with
          | none => none
          | some d => d.writeBlocks (p.drop nfree.toNat)
  else d.writeBlocks p

/-- `Sum128WithSeed`: `New128WithSeed(seed).Write(data).Sum128()`. -/
def Sum128WithSeed (data : List Byte) (seed : Nat) : Option (Nat × Nat) :=
  ((New128WithSeed seed).Write data).map Digest128.Sum128

/-- `Sum128`. -/
def Sum128 (data : List Byte) : Option (Nat × Nat) := Sum128WithSeed data 0

/-- Successive `Write` calls, one per chunk. -/
def writeAll (d : Digest128) : List (List Byte) → Option Digest128
  | [] => some d
  | c :: cs =>
    match d.Write c with
    | none => none
    | some d1 => writeAll d1 cs


/-! ## The one-shot reference definition (sections 4.2 and 4.3 of the spec) -/

namespace Ref

/-- Little-endian decoding of a byte string: least-significant byte first. -/
def leWord (bs : List Byte) : Nat :=
  bs.foldr (fun b acc => b.val + 256 * acc) 0

/-- Section 4.2/4.3: `rotate_left` on 64-bit words. -/
def rotateLeft (x r : Nat) : Nat := u64 (x <<< r) ||| (x >>> (64 - r))

/-- Section 4.2: `k1 = k1 * C1; k1 = rotate_left(k1, 31); k1 = k1 * C2`. -/
def mixK1 (k1 : Nat) : Nat :=
  u64 (rotateLeft (u64 (k1 * 0x87c37b91114253d5)) 31 * 0x4cf5ad432745937f)

/-- Section 4.2: `k2 = k2 * C2; k2 = rotate_left(k2, 33); k2 = k2 * C1`. -/
def mixK2 (k2 : Nat) : Nat :=
  u64 (rotateLeft (u64 (k2 * 0x4cf5ad432745937f)) 33 * 0x87c37b91114253d5)

/-- Section 4.2: the block transform on the accumulators and the two words. -/
def blockWords (h : Nat × Nat) (k1 k2 : Nat) : Nat × Nat :=
  let h1 := h.1 ^^^ mixK1 k1
  let h1 := rotateLeft h1 27
  let h1 := u64 (h1 + h.2)
  let h1 := u64 (u64 (h1 * 5) + 0x52dce729)
  let h2 := h.2 ^^^ mixK2 k2
  let h2 := rotateLeft h2 31
  let h2 := u64 (h2 + h1)
  let h2 := u64 (u64 (h2 * 5) + 0x38495ab5)
  (h1, h2)

/-- Section 4.2: the block transform on one 16-byte block, decoded as two
little-endian 64-bit words. -/
def blockTransform (h : Nat × Nat) (block : List Byte) : Nat × Nat :=
  blockWords h (leWord (block.take 8)) (leWord ((block.drop 8).take 8))

/-- Fold the block transform, in order, over the first `n` 16-byte blocks. -/
def foldBlocks : Nat → Nat × Nat → List Byte → Nat × Nat
  | 0, h, _ => h
  | n + 1, h, s => foldBlocks n (blockTransform h (s.take 16)) (s.drop 16)

/-- Section 4.3 steps 2-3: XOR each byte in at bit position `sh`, `sh + 8`, ... -/
def xorBytes : List Byte → Nat → Nat
  | [], _ => 0
  | b :: bs, sh => (b.val <<< sh) ^^^ xorBytes bs (sh + 8)

/-- Section 4.3 steps 1-3: fold the pending bytes into the accumulators. -/
def tailMix (h : Nat × Nat) (tail : List Byte) : Nat × Nat :=
  let k2 := xorBytes (tail.drop 8) 0
  let h2 := if 9 ≤ tail.length then h.2 ^^^ mixK2 k2 else h.2
  let k1 := xorBytes (tail.take 8) 0
  let h1 := if 1 ≤ tail.length then h.1 ^^^ mixK1 k1 else h.1
  (h1, h2)

/-- Section 4.3: `fmix64`. -/
def fmix64 (k : Nat) : Nat :=
  let k := k ^^^ (k >>> 33)
  let k := u64 (k * 0xff51afd7ed558ccd)
  let k := k ^^^ (k >>> 33)
  let k := u64 (k * 0xc4ceb9fe1a85ec53)
  k ^^^ (k >>> 33)

/-- Section 4.3: finalization of `(h1, h2)` with the pending tail bytes and
the total length. -/
def finalize (h : Nat × Nat) (tail : List Byte) (totalLen : Nat) : Nat × Nat :=
  let h := tailMix h tail
  let h1 := h.1 ^^^ u64 totalLen
  let h2 := h.2 ^^^ u64 totalLen
  let h1 := u64 (h1 + h2)
  let h2 := u64 (h2 + h1)
  let h1 := fmix64 h1
  let h2 := fmix64 h2
  let h1 := u64 (h1 + h2)
  let h2 := u64 (h2 + h1)
  (h1, h2)

/-- The one-shot MurmurHash3 x64-128 of `data` with `seed`. -/
def sum128 (data : List Byte) (seed : Nat) : Nat × Nat :=
  let n := data.length
  let h := foldBlocks (n / 16) (seed, seed) data
  finalize h (data.drop (n / 16 * 16)) n

end Ref

/-- The first `n` bytes of the buffer, as a byte sequence. -/
def prefixOf (buf : Fin 16 → Byte) : Nat → List Byte
  | 0 => []
  | n + 1 => prefixOf buf n ++ [if h : n < 16 then buf ⟨n, h⟩ else 0]

/-- Big-endian encoding of a 64-bit word in eight bytes, most-significant
byte first. -/
def beBytes (x : Nat) : List Byte :=
  (List.range 8).map (fun i => toByte (x / 256 ^ (7 - i)))

/-- Big-endian decoding: most-significant byte first. -/
def beWord (bs : List Byte) : Nat :=
  bs.foldl (fun acc b => 256 * acc + b.val) 0



/-- The digest `d` is what the stream `D` written to a fresh digest with
`seed` leaves behind: the complete blocks of `D` are mixed into `(h1, h2)`, the
rest of `D` is pending in `buf[0..tail)`, and `clen` counts `D`. -/
def Represents (seed : Nat) (D : List Byte) (d : Digest128) : Prop :=
  d.tail = ((D.length % 16 : Nat) : Int)
    ∧ prefixOf d.buf (D.length % 16) = D.drop (D.length / 16 * 16)
    ∧ (d.h1, d.h2) = Ref.foldBlocks (D.length / 16) (seed, seed) D
    ∧ d.clen = wrapInt (D.length : Int)
    ∧ d.seed = seed

/-- A well-typed digest whose byte count is the largest Go `int`. -/
def maxLenDigest : Digest128 := { New128 with clen := 2 ^ 63 - 1 }

/-- A digest with a full buffer (`tail = 16`), as `bmixbuf` expects it. -/
def fullBufDigest : Digest128 :=
  { clen := 16, tail := 16, buf := fun i => toByte (17 * i.val + 3), seed := 0, h1 := 1, h2 := 2 }

/-- A digest with the accumulators of `fullBufDigest` and an empty buffer. -/
def emptyBufDigest : Digest128 := { New128 with h1 := 1, h2 := 2 }

/-- The five ASCII bytes of "hello". -/
def hello : List Byte := [104, 101, 108, 108, 111]

/-- A digest with five pending bytes, as `Write` leaves it between calls. -/
def pendingDigest : Digest128 :=
  { clen := 21, tail := 5, buf := fun i => toByte (17 * i.val + 3), seed := 9, h1 := 1, h2 := 2 }

/-- The local words `k1`, `k2` of `Sum128` as the tail switch builds them
(lines 118-136 and 146-167), before they are multiplied and rotated. `t` is
`d.tail & 15`. -/
def tailWords (buf : Fin 16 → Byte) (t : Int) : Nat × Nat :=
  let k1 := 0
  let k2 := 0
  let k2 := if 15 ≤ t then k2 ^^^ u64 (bufAt buf 14 <<< 48) else k2
  let k2 := if 14 ≤ t then k2 ^^^ u64 (bufAt buf 13 <<< 40) else k2
  let k2 := if 13 ≤ t then k2 ^^^ u64 (bufAt buf 12 <<< 32) else k2
  let k2 := if 12 ≤ t then k2 ^^^ u64 (bufAt buf 11 <<< 24) else k2
  let k2 := if 11 ≤ t then k2 ^^^ u64 (bufAt buf 10 <<< 16) else k2
  let k2 := if 10 ≤ t then k2 ^^^ u64 (bufAt buf 9 <<< 8) else k2
  let k2 := if 9 ≤ t then k2 ^^^ u64 (bufAt buf 8 <<< 0) else k2
  let k1 := if 8 ≤ t then k1 ^^^ u64 (bufAt buf 7 <<< 56) else k1
  let k1 := if 7 ≤ t then k1 ^^^ u64 (bufAt buf 6 <<< 48) else k1
  let k1 := if 6 ≤ t then k1 ^^^ u64 (bufAt buf 5 <<< 40) else k1
  let k1 := if 5 ≤ t then k1 ^^^ u64 (bufAt buf 4 <<< 32) else k1
  let k1 := if 4 ≤ t then k1 ^^^ u64 (bufAt buf 3 <<< 24) else k1
  let k1 := if 3 ≤ t then k1 ^^^ u64 (bufAt buf 2 <<< 16) else k1
  let k1 := if 2 ≤ t then k1 ^^^ u64 (bufAt buf 1 <<< 8) else k1
  let k1 := if 1 ≤ t then k1 ^^^ u64 (bufAt buf 0 <<< 0) else k1
  (k1, k2)

namespace Ref
/-- The bounded loop for `k1`: XOR over `i` in `0..min(tail,8)-1` of
`buf[i] << (8*i)`. -/
def loopK1 (buf : Fin 16 → Byte) (tail : Nat) : Nat :=
  (List.range (min tail 8)).foldl (fun k i => k ^^^ (bufAt buf i <<< (8 * i))) 0

/-- The bounded loop for `k2`: XOR over `i` in `8..tail-1` of
`buf[i] << (8*(i-8))`. -/
def loopK2 (buf : Fin 16 → Byte) (tail : Nat) : Nat :=
  ((List.range tail).filter (fun i => 8 ≤ i)).foldl
    (fun k i => k ^^^ (bufAt buf i <<< (8 * (i - 8)))) 0
end Ref

/-- Two digests agree on everything `Write` and `Sum128` read: the
accumulators, the byte count, the fill level and the bytes of `buf` below the
fill level. The bytes of `buf` at and above `tail` are free. -/
def AgreeLive (d e : Digest128) : Prop :=
  d.h1 = e.h1 ∧ d.h2 = e.h2 ∧ d.clen = e.clen ∧ d.tail = e.tail
    ∧ ∀ i : Fin 16, (i.val : Int) < d.tail → d.buf i = e.buf i

/-- The digest `pendingDigest` with different stale bytes above its fill level. -/
def staleDigest : Digest128 :=
  { pendingDigest with buf := fun i => if i.val < 5 then pendingDigest.buf i else 255 }

/-- A stream of `2^63` one-byte chunks. -/
def longStream : List (List Byte) := List.replicate (2 ^ 63) [0]

/-- The Go index expression `p[i]`: a panic unless `0 ≤ i < len(p)`. -/
def indexAt (p : List Byte) (i : Int) : Option Byte :=
  if 0 ≤ i ∧ i < (p.length : Int) then p[i.toNat]? else none

/-- The Go slice expression `p[:hi]`: a panic unless `0 ≤ hi ≤ len(p)` (Go
allows `hi` up to the capacity; the length is the stricter bound). -/
def sliceTo (p : List Byte) (hi : Int) : Option (List Byte) :=
  if 0 ≤ hi ∧ hi ≤ (p.length : Int) then some (p.take hi.toNat) else none

/-- The Go slice expression `p[lo:]`: a panic unless `0 ≤ lo ≤ len(p)`. -/
def sliceFrom (p : List Byte) (lo : Int) : Option (List Byte) :=
  if 0 ≤ lo ∧ lo ≤ (p.length : Int) then some (p.drop lo.toNat) else none

/-- The two words `t[0]`, `t[1]` read through
`t := (*[2]uint64)(unsafe.Pointer(&p[off]))`: the index `&p[off]` is checked by
Go, and the cast reads the 16 bytes `p[off .. off+16)`, which have to lie
inside `p`. -/
def loadWords (p : List Byte) (off : Int) : Option (Nat × Nat) :=
  if 0 ≤ off ∧ off + 16 ≤ (p.length : Int) then
    some (loadWord p off.toNat, loadWord p (off.toNat + 8))
  else none

/-- One iteration of the buffer-filling loops of `Write`, with the read of
`p[i]` and the store into `buf` checked: `d.buf[d.tail] = p[i]; d.tail++`. -/
def fillStep (p : List Byte) (d : Digest128) (i : Nat) : Option Digest128 :=
  match indexAt p (i : Int) with
  | none => none
  | some b =>
    match d.store d.tail b with
    | none => none
    | some d1 => some { d1 with tail := d1.tail + 1 }

/-- The buffer-filling loops of `Write` with every access checked:
`for i := 0; i < len(p); i++ { d.buf[d.tail] = p[i]; d.tail++ }`. -/
def Digest128.fillChecked (d : Digest128) (p : List Byte) : Option Digest128 :=
  (List.range p.length).foldlM (fillStep p) d

/-- One iteration of the last loop of `Write`, with the read of `tail[i]`
and the store into `buf` checked: `d.buf[i] = tail[i]`. -/
def keepStep (tail : List Byte) (d : Digest128) (i : Nat) : Option Digest128 :=
  match indexAt tail (i : Int) with
  | none => none
  | some b => d.store (i : Int) b

/-- The last loop of `Write` with every access checked:
`for i := 0; i < d.tail; i++ { d.buf[i] = tail[i] }`. -/
def Digest128.keepChecked (d : Digest128) (tail : List Byte) : Option Digest128 :=
  (List.range d.tail.toNat).foldlM (keepStep tail) d

/-- One iteration of the loop of `bmix`, with the 16-byte read at
`&p[i*16]` checked. -/
def mixStep (p : List Byte) (h : Nat × Nat) (i : Nat) : Option (Nat × Nat) :=
  match loadWords p ((i : Int) * 16) with
  | none => none
  | some t => some (bmixBody h.1 h.2 t.1 t.2)

/-- `Digest128.bmix` with every access to `p` checked. -/
def Digest128.bmixChecked (d : Digest128) (p : List Byte) : Option (Digest128 × List Byte) :=
  let nblocks := p.length / 16
  match (List.range nblocks).foldlM (mixStep p) (d.h1, d.h2) with
  | none => none
  | some h =>
    match sliceFrom p ((nblocks : Int) * d.Size) with
    | none => none
    | some rest => some ({ d with h1 := h.1, h2 := h.2 }, rest)

/-- The end of `Write`, from `d, tail := d.bmix(p)` on, with every access
checked. -/
def Digest128.writeBlocksChecked (d : Digest128) (p : List Byte) : Option Digest128 :=
  match d.bmixChecked p with
  | none => none
  | some r =>
    let d := r.1
    let tail := r.2
    let d := { d with tail := (tail.length : Int) }
    d.keepChecked tail

/-- `Digest128.Write` with every index and slice expression on `p`, `add` and
`tail` checked, next to the checks on `buf` and in `bmixbuf` that
`Digest128.Write` already has. -/
def Digest128.WriteChecked (d : Digest128) (p : List Byte) : Option Digest128 :=
  let n : Int := p.length
  let d : Digest128 := { d with clen := wrapInt (d.clen + n) }
  if 0 < d.tail then
    let nfree : Int := d.Size - d.tail
    if (p.length : Int) ≤ nfree then
      match d.fillChecked p with
      | none => none
      | some d => if (p.length : Int) = nfree then d.bmixbuf else some d
    else
      match sliceTo p nfree with
      | none => none
      | some add =>
        match d.fillChecked add with
        | none => none
        | some d =>
          match d.bmixbuf with
          | none => none
          | some d =>
            match sliceFrom p nfree with
            | none => none
            | some p => d.writeBlocksChecked p
  else d.writeBlocksChecked p

/-! ## The pending buffer -/

theorem prefixOf_length (buf : Fin 16 → Byte) (n : Nat) : (prefixOf buf n).length = n := by
  induction n with
  | zero => rfl
  | succ n ih => simp [prefixOf, ih]

theorem prefixOf_congr (buf buf' : Fin 16 → Byte) (n : Nat)
    (h : ∀ i : Fin 16, i.val < n → buf i = buf' i) : prefixOf buf n = prefixOf buf' n := by
  induction n with
  | zero => rfl
  | succ n ih =>
    have h1 : prefixOf buf n = prefixOf buf' n := ih (fun i hi => h i (Nat.lt_succ_of_lt hi))
    simp only [prefixOf, h1]
    by_cases hn : n < 16
    · simp only [hn, dite_true]
      rw [h ⟨n, hn⟩ (Nat.lt_succ_self n)]
    · simp only [hn, dite_false]

theorem store_eq (d : Digest128) (i : Nat) (b : Byte) (hi : i < 16) :
    d.store (i : Int) b
      = some { d with buf := fun j => if (j.val : Int) = (i : Int) then b else d.buf j } := by
  have h : (0 : Int) ≤ (i : Int) ∧ (i : Int) < 16 := by omega
  simp only [Digest128.store, h, and_self, if_true]

theorem prefixOf_store_succ (buf : Fin 16 → Byte) (t : Nat) (b : Byte) (ht : t < 16) :
    prefixOf (fun j : Fin 16 => if (j.val : Int) = (t : Int) then b else buf j) (t + 1)
      = prefixOf buf t ++ [b] := by
  have h1 : prefixOf (fun j : Fin 16 => if (j.val : Int) = (t : Int) then b else buf j) t
      = prefixOf buf t := by
    apply prefixOf_congr
    intro i hi
    have : ¬ ((i.val : Int) = (t : Int)) := by omega
    simp only [this, if_false]
  simp only [prefixOf, h1, ht, dite_true, if_true]

theorem fill_spec (p : List Byte) : ∀ (d : Digest128) (t : Nat), d.tail = (t : Int) →
    t + p.length ≤ 16 →
    ∃ d', d.fill p = some d' ∧ d'.tail = ((t + p.length : Nat) : Int)
      ∧ prefixOf d'.buf (t + p.length) = prefixOf d.buf t ++ p
      ∧ d'.h1 = d.h1 ∧ d'.h2 = d.h2 ∧ d'.clen = d.clen ∧ d'.seed = d.seed := by
  induction p with
  | nil =>
    intro d t ht _
    exact ⟨d, rfl, by simpa using ht, by simp, rfl, rfl, rfl, rfl⟩
  | cons b rest ih =>
    intro d t ht hlen
    simp only [List.length_cons] at hlen
    have ht16 : t < 16 := by omega
    obtain ⟨d', hfill, htail, hpre, hh1, hh2, hclen, hseed⟩ :=
      ih { d with buf := fun j => if (j.val : Int) = (t : Int) then b else d.buf j,
                  tail := ((t + 1 : Nat) : Int) } (t + 1) rfl (by omega)
    refine ⟨d', ?_, ?_, ?_, hh1, hh2, hclen, hseed⟩
    · simp only [Digest128.fill, ht, store_eq d t b ht16]
      rw [← hfill]
      congr 1
    · rw [htail]; simp only [List.length_cons]; congr 1; omega
    · have e : t + (rest.length + 1) = t + 1 + rest.length := by omega
      simp only [List.length_cons, e, hpre]
      rw [prefixOf_store_succ d.buf t b ht16]
      simp

theorem keep_spec (l : List Byte) : ∀ (d : Digest128) (i : Nat), i + l.length ≤ 16 →
    ∃ d', d.keep l (i : Int) = some d' ∧ prefixOf d'.buf (i + l.length) = prefixOf d.buf i ++ l
      ∧ d'.tail = d.tail ∧ d'.h1 = d.h1 ∧ d'.h2 = d.h2 ∧ d'.clen = d.clen
      ∧ d'.seed = d.seed := by
  induction l with
  | nil =>
    intro d i _
    exact ⟨d, rfl, by simp, rfl, rfl, rfl, rfl, rfl⟩
  | cons b rest ih =>
    intro d i hlen
    simp only [List.length_cons] at hlen
    have hi16 : i < 16 := by omega
    obtain ⟨d', hkeep, hpre, htail, hh1, hh2, hclen, hseed⟩ :=
      ih { d with buf := fun j => if (j.val : Int) = (i : Int) then b else d.buf j }
        (i + 1) (by omega)
    refine ⟨d', ?_, ?_, htail, hh1, hh2, hclen, hseed⟩
    · rw [Digest128.keep, store_eq d i b hi16]
      rw [Nat.cast_succ] at hkeep
      exact hkeep
    · have e : i + (rest.length + 1) = i + 1 + rest.length := by omega
      simp only [List.length_cons, e, hpre]
      rw [prefixOf_store_succ d.buf i b hi16]
      simp

/-! ## Word decoding -/

theorem or_shiftLeft_eq_add (acc b k : Nat) (h : acc < 2 ^ k) :
    acc ||| b <<< k = acc + 2 ^ k * b := by
  rw [Nat.shiftLeft_eq, Nat.or_comm, Nat.mul_comm, ← Nat.mul_add_lt_is_or h, Nat.add_comm]

theorem or_shift_bytes (b0 b1 b2 b3 b4 b5 b6 b7 : Nat) (h0 : b0 < 256) (h1 : b1 < 256)
    (h2 : b2 < 256) (h3 : b3 < 256) (h4 : b4 < 256) (h5 : b5 < 256) (h6 : b6 < 256) :
    b0 ||| b1 <<< 8 ||| b2 <<< 16 ||| b3 <<< 24 ||| b4 <<< 32 ||| b5 <<< 40 ||| b6 <<< 48
        ||| b7 <<< 56
      = b0 + 256 * (b1 + 256 * (b2 + 256 * (b3 + 256 * (b4 + 256 * (b5 + 256 * (b6
          + 256 * b7)))))) := by
  rw [or_shiftLeft_eq_add b0 b1 8 (by omega)]
  rw [or_shiftLeft_eq_add _ b2 16 (by omega)]
  rw [or_shiftLeft_eq_add _ b3 24 (by omega)]
  rw [or_shiftLeft_eq_add _ b4 32 (by omega)]
  rw [or_shiftLeft_eq_add _ b5 40 (by omega)]
  rw [or_shiftLeft_eq_add _ b6 48 (by omega)]
  rw [or_shiftLeft_eq_add _ b7 56 (by omega)]
  omega

theorem bufAt_lt (buf : Fin 16 → Byte) (i : Nat) : bufAt buf i < 256 := by
  unfold bufAt
  split
  · exact (buf _).isLt
  · decide

theorem prefixOf_sixteen (buf : Fin 16 → Byte) :
    prefixOf buf 16 = [buf 0, buf 1, buf 2, buf 3, buf 4, buf 5, buf 6, buf 7,
      buf 8, buf 9, buf 10, buf 11, buf 12, buf 13, buf 14, buf 15] := by
  simp [prefixOf]

theorem loadUint64_zero (d : digest) :
    d.loadUint64 0 = Ref.leWord ((prefixOf d.buf 16).take 8) := by
  rw [prefixOf_sixteen]
  unfold digest.loadUint64
  rw [or_shift_bytes _ _ _ _ _ _ _ _ (bufAt_lt _ _) (bufAt_lt _ _) (bufAt_lt _ _) (bufAt_lt _ _)
    (bufAt_lt _ _) (bufAt_lt _ _) (bufAt_lt _ _)]
  rfl

theorem loadUint64_one (d : digest) :
    d.loadUint64 1 = Ref.leWord (((prefixOf d.buf 16).drop 8).take 8) := by
  rw [prefixOf_sixteen]
  unfold digest.loadUint64
  rw [or_shift_bytes _ _ _ _ _ _ _ _ (bufAt_lt _ _) (bufAt_lt _ _) (bufAt_lt _ _) (bufAt_lt _ _)
    (bufAt_lt _ _) (bufAt_lt _ _) (bufAt_lt _ _)]
  rfl

theorem loadWord_eq (p : List Byte) (off : Nat) :
    loadWord p off = Ref.leWord ((p.drop off).take 8) := rfl

/-! ## The block mixer -/

theorem bmixBody_eq (h1 h2 k1 k2 : Nat) :
    bmixBody h1 h2 k1 k2 = Ref.blockWords (h1, h2) k1 k2 := by
  simp only [bmixBody, Ref.blockWords, Ref.mixK1, Ref.mixK2, Ref.rotateLeft, c1_128, c2_128,
    Nat.reduceSub]

theorem blockTransform_drop (h : Nat × Nat) (p : List Byte) (off : Nat) :
    Ref.blockTransform h ((p.drop off).take 16)
      = Ref.blockWords h (loadWord p off) (loadWord p (off + 8)) := by
  simp only [Ref.blockTransform, loadWord_eq, List.take_take, List.drop_take, List.drop_drop]
  rfl

theorem foldl_range'_eq (p : List Byte) : ∀ (n i : Nat) (h : Nat × Nat),
    (List.range' i n).foldl
      (fun h i => bmixBody h.1 h.2 (loadWord p (i * 16)) (loadWord p (i * 16 + 8))) h
    = Ref.foldBlocks n h (p.drop (i * 16)) := by
  intro n
  induction n with
  | zero => intro i h; rfl
  | succ n ih =>
    intro i h
    rw [List.range'_succ, List.foldl_cons, ih, Ref.foldBlocks, blockTransform_drop,
      List.drop_drop, bmixBody_eq]
    congr 2
    omega

theorem bmixLoop_eq (p : List Byte) (n h1 h2 : Nat) :
    bmixLoop p n h1 h2 = Ref.foldBlocks n (h1, h2) p := by
  rw [bmixLoop, List.range_eq_range', foldl_range'_eq]
  simp

theorem bmix_eq (d : Digest128) (p : List Byte) :
    d.bmix p
      = ({ d with h1 := (Ref.foldBlocks (p.length / 16) (d.h1, d.h2) p).1,
                  h2 := (Ref.foldBlocks (p.length / 16) (d.h1, d.h2) p).2 },
         p.drop (p.length / 16 * 16)) := by
  simp only [Digest128.bmix, bmixLoop_eq]

theorem bmixbuf_eq (d : Digest128) (h : d.tail = 16) :
    d.bmixbuf
      = some { d with h1 := (Ref.blockTransform (d.h1, d.h2) (prefixOf d.buf 16)).1,
                      h2 := (Ref.blockTransform (d.h1, d.h2) (prefixOf d.buf 16)).2,
                      tail := 0 } := by
  have hne : ¬ (d.tail ≠ d.Size) := by simp [Digest128.Size, h]
  simp only [Digest128.bmixbuf, hne, if_false, Ref.blockTransform, ← loadUint64_zero,
    ← loadUint64_one, Ref.blockWords, Ref.mixK1, Ref.mixK2, Ref.rotateLeft, c1_128, c2_128,
    Nat.reduceSub]

/-! ## The streaming writer -/

theorem writeBlocks_spec (d : Digest128) (p : List Byte) :
    ∃ d', d.writeBlocks p = some d' ∧ d'.clen = d.clen ∧ d'.seed = d.seed
      ∧ d'.tail = ((p.length % 16 : Nat) : Int)
      ∧ (d'.h1, d'.h2) = Ref.foldBlocks (p.length / 16) (d.h1, d.h2) p
      ∧ prefixOf d'.buf (p.length % 16) = p.drop (p.length / 16 * 16) := by
  have hlen : (p.drop (p.length / 16 * 16)).length = p.length % 16 := by
    rw [List.length_drop]; omega
  obtain ⟨d', hkeep, hpre, htail, hh1, hh2, hclen, hseed⟩ :=
    keep_spec (p.drop (p.length / 16 * 16))
      { d with h1 := (Ref.foldBlocks (p.length / 16) (d.h1, d.h2) p).1,
               h2 := (Ref.foldBlocks (p.length / 16) (d.h1, d.h2) p).2,
               tail := (((p.drop (p.length / 16 * 16)).length : Nat) : Int) } 0
      (by rw [hlen]; omega)
  refine ⟨d', ?_, hclen, hseed, ?_, ?_, ?_⟩
  · simp only [Digest128.writeBlocks, bmix_eq]
    exact hkeep
  · rw [htail, hlen]
  · rw [hh1, hh2]
  · rw [hlen, Nat.zero_add] at hpre
    rw [hpre]
    simp [prefixOf]

theorem Write_of_tail_zero (d : Digest128) (p : List Byte) (h : d.tail = 0) :
    d.Write p
      = Digest128.writeBlocks { d with clen := wrapInt (d.clen + (p.length : Int)) } p := by
  simp only [Digest128.Write, h, lt_self_iff_false, if_false]

theorem Write_of_fit (d : Digest128) (p : List Byte) (h : 0 < d.tail)
    (hp : (p.length : Int) ≤ 16 - d.tail) :
    d.Write p
      = match Digest128.fill { d with clen := wrapInt (d.clen + (p.length : Int)) } p with
        | none => none
        | some d1 => if (p.length : Int) = 16 - d.tail then d1.bmixbuf else some d1 := by
  simp only [Digest128.Write, h, if_true, Digest128.Size, hp]

theorem Write_of_over (d : Digest128) (p : List Byte) (h : 0 < d.tail) (h16 : d.tail ≤ 16)
    (hp : ¬ (p.length : Int) ≤ 16 - d.tail) :
    d.Write p
      = match Digest128.fill { d with clen := wrapInt (d.clen + (p.length : Int)) }
          (p.take (16 - d.tail).toNat) with
        | none => none
        | some d1 =>
          match d1.bmixbuf with
          | none => none
          | some d2 => d2.writeBlocks (p.drop (16 - d.tail).toNat) := by
  have hn : ¬ (16 - d.tail < 0) := by omega
  simp only [Digest128.Write, h, if_true, Digest128.Size, hp, if_false, hn]
theorem foldBlocks_zero (h : Nat × Nat) (s : List Byte) : Ref.foldBlocks 0 h s = h := rfl

theorem foldBlocks_succ (n : Nat) (h : Nat × Nat) (s : List Byte) :
    Ref.foldBlocks (n + 1) h s
      = Ref.foldBlocks n (Ref.blockTransform h (s.take 16)) (s.drop 16) := by
  rw [Ref.foldBlocks]

/-- What one `Write` does to a digest whose pending bytes are `prefixOf d.buf t`. -/
theorem Write_spec (d : Digest128) (p : List Byte) (t : Nat) (ht : d.tail = (t : Int))
    (ht15 : t ≤ 15) :
    ∃ d', d.Write p = some d' ∧ d'.clen = wrapInt (d.clen + (p.length : Int))
      ∧ d'.seed = d.seed
      ∧ d'.tail = (((t + p.length) % 16 : Nat) : Int)
      ∧ (d'.h1, d'.h2)
          = Ref.foldBlocks ((t + p.length) / 16) (d.h1, d.h2) (prefixOf d.buf t ++ p)
      ∧ prefixOf d'.buf ((t + p.length) % 16)
          = (prefixOf d.buf t ++ p).drop ((t + p.length) / 16 * 16) := by
  rcases Nat.eq_zero_or_pos t with h0 | hpos
  · -- empty buffer: straight to the block path
    subst h0
    obtain ⟨d', hw, hclen, hseed, htail, hh, hpre⟩ :=
      writeBlocks_spec { d with clen := wrapInt (d.clen + (p.length : Int)) } p
    refine ⟨d', ?_, hclen, hseed, ?_, ?_, ?_⟩
    · rw [Write_of_tail_zero d p (by simpa using ht)]; exact hw
    · simpa using htail
    · simpa [prefixOf] using hh
    · simpa [prefixOf] using hpre
  · have hlt : (0 : Int) < d.tail := by omega
    by_cases hfit : (p.length : Int) ≤ 16 - d.tail
    · -- everything fits in the buffer
      obtain ⟨d1, hfill, htail1, hpre1, hh1, hh2, hclen1, hseed1⟩ :=
        fill_spec p { d with clen := wrapInt (d.clen + (p.length : Int)) } t ht (by omega)
      rw [Write_of_fit d p hlt hfit, hfill]
      by_cases hfull : (p.length : Int) = 16 - d.tail
      · -- the buffer is now full: mix it
        have e16 : t + p.length = 16 := by omega
        have ht1 : d1.tail = 16 := by rw [htail1, e16]; rfl
        simp only [if_pos hfull]
        rw [bmixbuf_eq d1 ht1]
        refine ⟨_, rfl, hclen1, hseed1, ?_, ?_, ?_⟩
        · simp [e16]
        · rw [e16] at hpre1
          simp only [e16, hpre1, hh1, hh2]
          have : (16 : Nat) / 16 = 0 + 1 := by norm_num
          rw [this, foldBlocks_succ, foldBlocks_zero]
          have hl : (prefixOf d.buf t ++ p).length = 16 := by
            simp [prefixOf_length]; omega
          rw [List.take_of_length_le (by omega)]
        · have hl : (prefixOf d.buf t ++ p).length = 16 := by
            simp [prefixOf_length]; omega
          simp only [e16]
          rw [List.drop_of_length_le (by omega)]
          rfl
      · have elt : t + p.length < 16 := by omega
        simp only [if_neg hfull]
        refine ⟨d1, rfl, hclen1, hseed1, ?_, ?_, ?_⟩
        · rw [htail1, Nat.mod_eq_of_lt elt]
        · rw [Nat.div_eq_of_lt elt, foldBlocks_zero, hh1, hh2]
        · rw [Nat.mod_eq_of_lt elt, Nat.div_eq_of_lt elt, hpre1]
          simp
    · -- one full block can be formed; the rest goes down the block path
      have hnat : (16 - d.tail).toNat = 16 - t := by omega
      have hgt : 16 - t < p.length := by omega
      have htake : (p.take (16 - t)).length = 16 - t := by
        rw [List.length_take]; omega
      obtain ⟨d1, hfill, htail1, hpre1, hh1, hh2, hclen1, hseed1⟩ :=
        fill_spec (p.take (16 - t)) { d with clen := wrapInt (d.clen + (p.length : Int)) } t ht
          (by omega)
      have e16 : t + (p.take (16 - t)).length = 16 := by omega
      have ht1 : d1.tail = 16 := by rw [htail1, e16]; rfl
      rw [e16] at hpre1
      obtain ⟨d3, hw, hclen3, hseed3, htail3, hh3, hpre3⟩ :=
        writeBlocks_spec
          { d1 with h1 := (Ref.blockTransform (d1.h1, d1.h2) (prefixOf d1.buf 16)).1,
                    h2 := (Ref.blockTransform (d1.h1, d1.h2) (prefixOf d1.buf 16)).2,
                    tail := 0 } (p.drop (16 - t))
      have hdl : (p.drop (16 - t)).length = p.length - (16 - t) := List.length_drop _ _
      have ediv : (t + p.length) / 16 = (p.length - (16 - t)) / 16 + 1 := by omega
      have emod : (t + p.length) % 16 = (p.length - (16 - t)) % 16 := by omega
      have hpl : (prefixOf d.buf t).length = t := prefixOf_length _ _
      have hs16 : (prefixOf d.buf t ++ p).take 16 = prefixOf d.buf t ++ p.take (16 - t) := by
        rw [List.take_append_eq_append_take, hpl, List.take_of_length_le (by omega)]
      have hd16 : (prefixOf d.buf t ++ p).drop 16 = p.drop (16 - t) := by
        rw [List.drop_append_eq_append_drop, hpl, List.drop_of_length_le (by omega)]
        rfl
      refine ⟨d3, ?_, ?_, ?_, ?_, ?_, ?_⟩
      · rw [Write_of_over d p hlt (by omega) hfit, hnat, hfill]
        simp only [bmixbuf_eq d1 ht1]
        exact hw
      · rw [hclen3]; exact hclen1
      · rw [hseed3]; exact hseed1
      · rw [htail3, hdl, emod]
      · rw [hh3, hdl, ediv, foldBlocks_succ, hs16, hd16, hpre1, hh1, hh2]
      · rw [emod, ← hdl, hpre3, hdl, ediv, Nat.add_mul, Nat.one_mul, Nat.add_comm,
          ← List.drop_drop, hd16]
/-! ## Finalization -/

theorem u64_of_lt (x : Nat) (h : x < 2 ^ 64) : u64 x = x := by
  unfold u64
  exact Nat.mod_eq_of_lt h

theorem u64_shift_byte (b : Byte) (k : Nat) (hk : k ≤ 56) : u64 (b.val <<< k) = b.val <<< k := by
  apply u64_of_lt
  rw [Nat.shiftLeft_eq]
  calc b.val * 2 ^ k < 256 * 2 ^ k := Nat.mul_lt_mul_of_pos_right b.isLt (Nat.pow_pos (by decide))
    _ ≤ 256 * 2 ^ 56 := Nat.mul_le_mul_left _ (Nat.pow_le_pow_right (by decide) hk)
    _ = 2 ^ 64 := by norm_num

theorem u64_byte (b : Byte) : u64 b.val = b.val :=
  u64_of_lt _ (Nat.lt_trans b.isLt (by norm_num))


theorem xor_left_comm (a b c : Nat) : a ^^^ (b ^^^ c) = b ^^^ (a ^^^ c) := by
  rw [← Nat.xor_assoc, Nat.xor_comm a b, Nat.xor_assoc]




theorem mixK1_code (w : Nat) :
    u64 ((u64 (u64 (w * c1_128) <<< 31) ||| (u64 (w * c1_128) >>> 33)) * c2_128)
      = Ref.mixK1 w := by
  simp only [Ref.mixK1, Ref.rotateLeft, c1_128, c2_128, Nat.reduceSub]

theorem mixK2_code (w : Nat) :
    u64 ((u64 (u64 (w * c2_128) <<< 33) ||| (u64 (w * c2_128) >>> 31)) * c1_128)
      = Ref.mixK2 w := by
  simp only [Ref.mixK2, Ref.rotateLeft, c1_128, c2_128, Nat.reduceSub]



theorem prefixOf_take (buf : Fin 16 → Byte) (t : Nat) : ∀ n, t ≤ n →
    prefixOf buf t = (prefixOf buf n).take t := by
  intro n
  induction n with
  | zero =>
    intro h
    have : t = 0 := by omega
    subst this
    rfl
  | succ n ih =>
    intro h
    rcases Nat.eq_or_lt_of_le h with h1 | h1
    · subst h1
      rw [List.take_of_length_le (by rw [prefixOf_length])]
    · rw [ih (by omega), prefixOf, List.take_append_of_le_length (by rw [prefixOf_length]; omega)]

set_option maxHeartbeats 1000000 in
theorem tailSwitch_eq (buf : Fin 16 → Byte) (t : Nat) (ht : t ≤ 15) (h1 h2 : Nat) :
    tailSwitch buf (t : Int) h1 h2 = Ref.tailMix (h1, h2) (prefixOf buf t) := by
  rw [prefixOf_take buf t 16 (by omega), prefixOf_sixteen]
  interval_cases t
  all_goals simp only [tailSwitch, Nat.cast_ofNat, Nat.cast_zero, Nat.cast_one, Int.reduceLE,
    if_true, if_false, Nat.zero_xor, Nat.shiftLeft_zero]
  all_goals simp only [Ref.tailMix, List.take, List.drop, List.length, Ref.xorBytes]
  all_goals simp only [Nat.reduceAdd, Nat.reduceLeDiff, if_true, if_false, Nat.shiftLeft_zero,
    Nat.xor_zero, Nat.zero_add, Nat.le_refl]
  all_goals try simp only [bufAt, Nat.reduceLT, dite_true]
  all_goals try simp only [u64_shift_byte, u64_byte, Nat.reduceLeDiff]
  all_goals try simp only [mixK1_code, mixK2_code]
  all_goals try simp only [Nat.xor_assoc, Nat.xor_comm, xor_left_comm]
  all_goals rfl
theorem wrapInt_wrapInt_add (a b : Int) : wrapInt (wrapInt a + b) = wrapInt (a + b) := by
  unfold wrapInt
  omega

theorem wrapInt_of_lt (a : Int) (h0 : -2 ^ 63 ≤ a) (h1 : a < 2 ^ 63) : wrapInt a = a := by
  unfold wrapInt
  omega

theorem toUint64_wrapInt (a : Int) : toUint64 (wrapInt a) = toUint64 a := by
  unfold toUint64 wrapInt
  omega

theorem toUint64_natCast (n : Nat) : toUint64 (n : Int) = u64 n := by
  unfold toUint64 u64
  omega

theorem fmix64_eq (k : Nat) : fmix64 k = Ref.fmix64 k := by
  simp only [fmix64, Ref.fmix64]

theorem Sum128_eq (d : Digest128) (t : Nat) (ht : d.tail = (t : Int)) (ht15 : t ≤ 15)
    (n : Nat) (hn : toUint64 d.clen = u64 n) :
    d.Sum128 = Ref.finalize (d.h1, d.h2) (prefixOf d.buf t) n := by
  have hmod : (t : Int) % 16 = (t : Int) := by omega
  simp only [Digest128.Sum128, ht, hmod, tailSwitch_eq d.buf t ht15, hn, fmix64_eq, Ref.finalize]

theorem foldBlocks_append (m : Nat) (b c : List Byte) : ∀ (k : Nat) (h : Nat × Nat)
    (a : List Byte), a.length = 16 * k →
    Ref.foldBlocks (k + m) h (a ++ b) = Ref.foldBlocks m (Ref.foldBlocks k h (a ++ c)) b := by
  intro k
  induction k with
  | zero =>
    intro h a ha
    have : a = [] := List.length_eq_zero.mp (by omega)
    subst this
    simp [foldBlocks_zero]
  | succ k ih =>
    intro h a ha
    have e : k + 1 + m = (k + m) + 1 := by omega
    have t1 : ∀ x : List Byte, (a ++ x).take 16 = a.take 16 := by
      intro x
      rw [List.take_append_of_le_length (by omega)]
    have t2 : ∀ x : List Byte, (a ++ x).drop 16 = a.drop 16 ++ x := by
      intro x
      rw [List.drop_append_of_le_length (by omega)]
    rw [e, foldBlocks_succ, foldBlocks_succ, t1, t1, t2, t2]
    exact ih _ _ (by rw [List.length_drop]; omega)

theorem represents_new (seed : Nat) : Represents seed [] (New128WithSeed seed) := by
  refine ⟨rfl, rfl, rfl, ?_, rfl⟩
  show (0 : Int) = wrapInt ((0 : Nat) : Int)
  rw [wrapInt_of_lt] <;> norm_num

theorem represents_write (seed : Nat) (D : List Byte) (d : Digest128) (p : List Byte)
    (h : Represents seed D d) : ∃ d', d.Write p = some d' ∧ Represents seed (D ++ p) d' := by
  obtain ⟨htail, hpre, hh, hclen, hseed⟩ := h
  obtain ⟨d', hw, hclen', hseed', htail', hh', hpre'⟩ :=
    Write_spec d p (D.length % 16) htail (by omega)
  have hD : D.take (16 * (D.length / 16)) ++ D.drop (D.length / 16 * 16) = D := by
    rw [Nat.mul_comm]; exact List.take_append_drop _ _
  have hal : (D.take (16 * (D.length / 16))).length = 16 * (D.length / 16) := by
    rw [List.length_take]; omega
  have ediv : (D.length + p.length) / 16 = D.length / 16 + (D.length % 16 + p.length) / 16 := by
    omega
  have emod : (D.length + p.length) % 16 = (D.length % 16 + p.length) % 16 := by omega
  have hDp : D ++ p = D.take (16 * (D.length / 16)) ++ (D.drop (D.length / 16 * 16) ++ p) := by
    rw [← List.append_assoc, hD]
  refine ⟨d', hw, ?_, ?_, ?_, ?_, ?_⟩
  · rw [htail', List.length_append, emod]
  · rw [List.length_append, emod, hpre', hpre, ediv, Nat.add_mul, ← List.drop_drop]
    congr 1
    rw [hDp, List.drop_append_of_le_length (by rw [hal]; omega)]
    have hz : List.drop (D.length / 16 * 16) (List.take (16 * (D.length / 16)) D) = [] :=
      List.drop_of_length_le (by rw [hal]; omega)
    rw [hz, List.nil_append]
  · rw [hh', hh, hpre, List.length_append, ediv]
    conv_rhs => rw [hDp]
    rw [foldBlocks_append _ _ (D.drop (D.length / 16 * 16)) _ _ _ hal, hD]
  · rw [hclen', hclen, wrapInt_wrapInt_add, List.length_append]
    push_cast
    rfl
  · rw [hseed', hseed]
/-! ## The stream invariant -/

theorem u64_lt (x : Nat) : u64 x < 2 ^ 64 := by
  unfold u64
  exact Nat.mod_lt _ (by norm_num)

theorem writeAll_represents (seed : Nat) (cs : List (List Byte)) : ∀ (D : List Byte)
    (d : Digest128), Represents seed D d →
    ∃ d', writeAll d cs = some d' ∧ Represents seed (D ++ cs.flatten) d' := by
  induction cs with
  | nil =>
    intro D d h
    exact ⟨d, rfl, by simpa using h⟩
  | cons c cs ih =>
    intro D d h
    obtain ⟨d1, hw, h1⟩ := represents_write seed D d c h
    obtain ⟨d2, hw2, h2⟩ := ih (D ++ c) d1 h1
    refine ⟨d2, ?_, ?_⟩
    · rw [writeAll, hw]
      exact hw2
    · simpa [List.append_assoc] using h2

theorem represents_Sum128 (seed : Nat) (D : List Byte) (d : Digest128)
    (h : Represents seed D d) : d.Sum128 = Ref.sum128 D seed := by
  obtain ⟨htail, hpre, hh, hclen, _⟩ := h
  rw [Sum128_eq d (D.length % 16) htail (by omega) D.length
    (by rw [hclen, toUint64_wrapInt, toUint64_natCast]), hpre, hh]
  rfl

theorem represents_tail (seed : Nat) (D : List Byte) (d : Digest128)
    (h : Represents seed D d) : 0 ≤ d.tail ∧ d.tail ≤ 15 := by
  obtain ⟨htail, _⟩ := h
  omega

/-! ## Encoding of the result -/

theorem ofFn_eq_prefixOf (buf : Fin 16 → Byte) : List.ofFn buf = prefixOf buf 16 := by
  rw [prefixOf_sixteen]
  rfl

theorem beBytes_eq (x : Nat) :
    beBytes x = [toByte (x >>> 56), toByte (x >>> 48), toByte (x >>> 40), toByte (x >>> 32),
      toByte (x >>> 24), toByte (x >>> 16), toByte (x >>> 8), toByte x] := by
  simp [beBytes, List.range_succ, Nat.shiftRight_eq_div_pow]

theorem beWord_beBytes (x : Nat) (h : x < 2 ^ 64) : beWord (beBytes x) = x := by
  simp [beBytes, List.range_succ, beWord, toByte]
  omega

theorem Sum128_lt (d : Digest128) : d.Sum128.1 < 2 ^ 64 ∧ d.Sum128.2 < 2 ^ 64 := by
  simp only [Digest128.Sum128]
  exact ⟨u64_lt _, u64_lt _⟩

theorem prefixOf_getElem? (buf : Fin 16 → Byte) (i : Fin 16) : ∀ n, i.val < n →
    (prefixOf buf n)[i.val]? = some (buf i) := by
  intro n
  induction n with
  | zero => intro h; omega
  | succ n ih =>
    intro h
    rw [prefixOf]
    rcases Nat.lt_succ_iff_lt_or_eq.mp h with hlt | heq
    · rw [List.getElem?_append_left (by rw [prefixOf_length]; exact hlt)]
      exact ih hlt
    · rw [List.getElem?_append_right (by rw [prefixOf_length]; omega), prefixOf_length]
      have hn : n < 16 := by omega
      simp only [heq, Nat.sub_self, hn, dite_true, List.getElem?_cons_zero]
      congr 2
      exact Fin.ext heq.symm

theorem u64_shift_bufAt (buf : Fin 16 → Byte) (i k : Nat) (hk : k ≤ 56) :
    u64 (bufAt buf i <<< k) = bufAt buf i <<< k := by
  apply u64_of_lt
  rw [Nat.shiftLeft_eq]
  calc bufAt buf i * 2 ^ k < 256 * 2 ^ k :=
        Nat.mul_lt_mul_of_pos_right (bufAt_lt buf i) (Nat.pow_pos (by decide))
    _ ≤ 256 * 2 ^ 56 := Nat.mul_le_mul_left _ (Nat.pow_le_pow_right (by decide) hk)
    _ = 2 ^ 64 := by norm_num

set_option maxHeartbeats 1000000 in
theorem tailWords_eq_loops (buf : Fin 16 → Byte) (t : Nat) (ht : t ≤ 15) :
    tailWords buf (t : Int) = (Ref.loopK1 buf t, Ref.loopK2 buf t) := by
  interval_cases t
  all_goals simp only [tailWords, Nat.cast_ofNat, Nat.cast_zero, Nat.cast_one, Int.reduceLE,
    if_true, if_false, Nat.zero_xor, Nat.shiftLeft_zero]
  all_goals simp only [Ref.loopK1, Ref.loopK2, List.range_succ, List.range_zero, List.nil_append,
    List.cons_append, List.filter, Nat.reduceLeDiff, decide_True, decide_False,
    List.foldl, Nat.reduceMul, Nat.reduceSub, Nat.zero_xor, Nat.shiftLeft_zero,
    Nat.min_def, if_true, if_false, Nat.le_refl]
  all_goals try simp only [u64_shift_bufAt, Nat.reduceLeDiff, u64_of_lt _
    (Nat.lt_trans (bufAt_lt _ _) (by norm_num : 256 < 2 ^ 64))]
  all_goals try simp only [Nat.xor_assoc, Nat.xor_comm, xor_left_comm]

set_option maxHeartbeats 1000000 in
theorem tailSwitch_eq_words (buf : Fin 16 → Byte) (t : Nat) (ht : t ≤ 15) (h1 h2 : Nat) :
    tailSwitch buf (t : Int) h1 h2
      = (if 1 ≤ t then h1 ^^^ Ref.mixK1 (tailWords buf (t : Int)).1 else h1,
         if 9 ≤ t then h2 ^^^ Ref.mixK2 (tailWords buf (t : Int)).2 else h2) := by
  interval_cases t
  all_goals simp only [tailSwitch, tailWords, Nat.cast_ofNat, Nat.cast_zero, Nat.cast_one,
    Int.reduceLE, if_true, if_false, Nat.zero_xor, Nat.shiftLeft_zero, Nat.reduceLeDiff,
    Nat.le_refl, mixK1_code, mixK2_code]

theorem u64_toUint64 (c : Int) : u64 (toUint64 c) = toUint64 c := by
  unfold u64 toUint64
  omega

theorem agreeLive_prefix (d e : Digest128) (h : AgreeLive d e) (t : Nat) (ht : d.tail = (t : Int)) :
    prefixOf d.buf t = prefixOf e.buf t := by
  apply prefixOf_congr
  intro i hi
  exact h.2.2.2.2 i (by omega)

theorem agreeLive_Sum128 (d e : Digest128) (h : AgreeLive d e) (h0 : 0 ≤ d.tail)
    (h15 : d.tail ≤ 15) : d.Sum128 = e.Sum128 := by
  have ht : d.tail = (d.tail.toNat : Int) := by omega
  obtain ⟨hh1, hh2, hclen, htail, _⟩ := h
  rw [Sum128_eq d d.tail.toNat ht (by omega) (toUint64 d.clen) (u64_toUint64 _).symm,
    Sum128_eq e d.tail.toNat (by rw [← htail]; exact ht) (by omega) (toUint64 d.clen)
      (by rw [← hclen]; exact (u64_toUint64 _).symm),
    agreeLive_prefix d e ⟨hh1, hh2, hclen, htail, ‹_›⟩ _ ht, hh1, hh2]

theorem agreeLive_Write (d e : Digest128) (p : List Byte) (h : AgreeLive d e) (h0 : 0 ≤ d.tail)
    (h15 : d.tail ≤ 15) :
    ∃ d' e', d.Write p = some d' ∧ e.Write p = some e' ∧ AgreeLive d' e'
      ∧ 0 ≤ d'.tail ∧ d'.tail ≤ 15 := by
  have ht : d.tail = (d.tail.toNat : Int) := by omega
  have hpre := agreeLive_prefix d e h _ ht
  obtain ⟨hh1, hh2, hclen, htail, _⟩ := h
  obtain ⟨d', hw, hc, _, htl, hh, hp⟩ := Write_spec d p d.tail.toNat ht (by omega)
  obtain ⟨e', hw', hc', _, htl', hh', hp'⟩ :=
    Write_spec e p d.tail.toNat (by rw [← htail]; exact ht) (by omega)
  rw [← hh1, ← hh2, ← hpre, ← hh] at hh'
  rw [← hpre, ← hp] at hp'
  refine ⟨d', e', hw, hw', ⟨?_, ?_, ?_, ?_, ?_⟩, by omega, by omega⟩
  · exact (congrArg Prod.fst hh').symm
  · exact (congrArg Prod.snd hh').symm
  · rw [hc, hc', hclen]
  · rw [htl, htl']
  · intro i hi
    have hi' : i.val < (d.tail.toNat + p.length) % 16 := by omega
    have e1 := prefixOf_getElem? d'.buf i _ hi'
    have e2 := prefixOf_getElem? e'.buf i _ hi'
    rw [hp'] at e2
    exact Option.some.inj (e1.symm.trans e2)

theorem length_flatten_replicate (n : Nat) (b : Byte) :
    (List.replicate n [b]).flatten.length = n := by
  induction n with
  | zero => rfl
  | succ n ih => simp [List.replicate_succ, ih]

theorem wrapInt_two_pow : wrapInt (((2 ^ 63 : Nat) : Int)) = -2 ^ 63 := by
  unfold wrapInt
  norm_num

/-! ## Injectivity of the word operations -/

theorem coprime_of_odd (c : Nat) (h : c % 2 = 1) : Nat.gcd (2 ^ 64) c = 1 := by
  have h2 : Nat.Coprime 2 c := by
    show Nat.gcd 2 c = 1
    rw [Nat.gcd_rec, h, Nat.gcd_one_left]
  exact Nat.Coprime.pow_left 64 h2

theorem u64_mul_inj (c : Nat) (hc : c % 2 = 1) (x y : Nat) (hx : x < 2 ^ 64) (hy : y < 2 ^ 64)
    (h : u64 (x * c) = u64 (y * c)) : x = y := by
  unfold u64 at h
  have h1 : x * c ≡ y * c [MOD 2 ^ 64] := h
  exact (Nat.ModEq.cancel_right_of_coprime (coprime_of_odd c hc) h1).eq_of_lt_of_lt hx hy

theorem u64_add_right_inj (z x y : Nat) (hx : x < 2 ^ 64) (hy : y < 2 ^ 64)
    (h : u64 (x + z) = u64 (y + z)) : x = y := by
  unfold u64 at h
  omega

theorem u64_add_left_inj (z x y : Nat) (hx : x < 2 ^ 64) (hy : y < 2 ^ 64)
    (h : u64 (z + x) = u64 (z + y)) : x = y := by
  unfold u64 at h
  omega

theorem shiftRight_xor (a b n : Nat) : (a ^^^ b) >>> n = (a >>> n) ^^^ (b >>> n) := by
  apply Nat.eq_of_testBit_eq
  intro i
  simp only [Nat.testBit_shiftRight, Nat.testBit_xor]

theorem xorshift_lt (x : Nat) (hx : x < 2 ^ 64) : x ^^^ (x >>> 33) < 2 ^ 64 := by
  apply Nat.xor_lt_two_pow hx
  rw [Nat.shiftRight_eq_div_pow]
  exact Nat.lt_of_le_of_lt (Nat.div_le_self _ _) hx

theorem xorshift_involutive (x : Nat) (hx : x < 2 ^ 64) :
    (x ^^^ (x >>> 33)) ^^^ ((x ^^^ (x >>> 33)) >>> 33) = x := by
  have hz : (x >>> 33) >>> 33 = 0 := by
    rw [← Nat.shiftRight_add, Nat.shiftRight_eq_div_pow]
    exact Nat.div_eq_of_lt (Nat.lt_of_lt_of_le hx (by norm_num))
  rw [shiftRight_xor, hz, Nat.xor_zero, Nat.xor_assoc, Nat.xor_self, Nat.xor_zero]

theorem xorshift_inj (x y : Nat) (hx : x < 2 ^ 64) (hy : y < 2 ^ 64)
    (h : x ^^^ (x >>> 33) = y ^^^ (y >>> 33)) : x = y := by
  rw [← xorshift_involutive x hx, ← xorshift_involutive y hy, h]

theorem rotl_sum (r s : Nat) (hrs : r + s = 64) (x : Nat) (hx : x < 2 ^ 64) :
    u64 (x <<< r) ||| (x >>> s) = x / 2 ^ s + 2 ^ r * (x % 2 ^ s) := by
  have h64 : (2 : Nat) ^ 64 = 2 ^ r * 2 ^ s := by rw [← Nat.pow_add, hrs]
  have h1 : u64 (x <<< r) = (x % 2 ^ s) <<< r := by
    unfold u64
    rw [Nat.shiftLeft_eq, Nat.shiftLeft_eq, h64, Nat.mul_comm x, Nat.mul_mod_mul_left,
      Nat.mul_comm]
  have h2 : x >>> s < 2 ^ r := by
    rw [Nat.shiftRight_eq_div_pow]
    apply Nat.div_lt_of_lt_mul
    rw [Nat.mul_comm, ← h64]
    exact hx
  rw [h1, Nat.or_comm, or_shiftLeft_eq_add _ _ _ h2, Nat.shiftRight_eq_div_pow]

theorem rotl_inj (r s : Nat) (hrs : r + s = 64) (x y : Nat) (hx : x < 2 ^ 64) (hy : y < 2 ^ 64)
    (h : u64 (x <<< r) ||| (x >>> s) = u64 (y <<< r) ||| (y >>> s)) : x = y := by
  rw [rotl_sum r s hrs x hx, rotl_sum r s hrs y hy] at h
  have h64 : (2 : Nat) ^ 64 = 2 ^ s * 2 ^ r := by rw [← Nat.pow_add, Nat.add_comm, hrs]
  have hqx : x / 2 ^ s < 2 ^ r := Nat.div_lt_of_lt_mul (by rw [← h64]; exact hx)
  have hqy : y / 2 ^ s < 2 ^ r := Nat.div_lt_of_lt_mul (by rw [← h64]; exact hy)
  have hq : x / 2 ^ s = y / 2 ^ s := by
    have := congrArg (· % 2 ^ r) h
    simpa [Nat.add_mul_mod_self_left, Nat.mod_eq_of_lt hqx, Nat.mod_eq_of_lt hqy] using this
  have hm : x % 2 ^ s = y % 2 ^ s := by
    rw [hq] at h
    have h' := Nat.add_left_cancel h
    exact Nat.eq_of_mul_eq_mul_left (Nat.pow_pos (by decide)) h'
  rw [← Nat.div_add_mod x (2 ^ s), ← Nat.div_add_mod y (2 ^ s), hq, hm]

theorem rotl_lt (r s x : Nat) (hx : x < 2 ^ 64) :
    u64 (x <<< r) ||| (x >>> s) < 2 ^ 64 := by
  apply Nat.or_lt_two_pow (u64_lt _)
  rw [Nat.shiftRight_eq_div_pow]
  exact Nat.lt_of_le_of_lt (Nat.div_le_self _ _) hx

theorem fmix64_lt (x : Nat) : fmix64 x < 2 ^ 64 := by
  simp only [fmix64]
  exact xorshift_lt _ (u64_lt _)

theorem fmix64_inj (x y : Nat) (hx : x < 2 ^ 64) (hy : y < 2 ^ 64)
    (h : fmix64 x = fmix64 y) : x = y := by
  simp only [fmix64] at h
  have h1 := xorshift_inj _ _ (u64_lt _) (u64_lt _) h
  have h2 := u64_mul_inj _ (by decide) _ _ (xorshift_lt _ (u64_lt _)) (xorshift_lt _ (u64_lt _)) h1
  have h3 := xorshift_inj _ _ (u64_lt _) (u64_lt _) h2
  have h4 := u64_mul_inj _ (by decide) _ _ (xorshift_lt _ hx) (xorshift_lt _ hy) h3
  exact xorshift_inj _ _ hx hy h4

theorem xor_shiftLeft_eq_add (a c k : Nat) (h : a < 2 ^ k) :
    a ^^^ c <<< k = a + 2 ^ k * c := by
  rw [← or_shiftLeft_eq_add a c k h]
  apply Nat.eq_of_testBit_eq
  intro i
  simp only [Nat.testBit_xor, Nat.testBit_or, Nat.testBit_shiftLeft]
  by_cases hik : k ≤ i
  · have ha : a.testBit i = false :=
      Nat.testBit_lt_two_pow (Nat.lt_of_lt_of_le h (Nat.pow_le_pow_right (by decide) hik))
    simp [ha]
  · simp [hik]

theorem leWord_cons (b : Byte) (bs : List Byte) :
    Ref.leWord (b :: bs) = b.val + 256 * Ref.leWord bs := rfl

theorem leWord_lt (bs : List Byte) : Ref.leWord bs < 256 ^ bs.length := by
  induction bs with
  | nil => simp [Ref.leWord]
  | cons b bs ih =>
    rw [leWord_cons, List.length_cons, Nat.pow_succ]
    have hb := b.isLt
    omega

theorem leWord_inj (a : List Byte) : ∀ b : List Byte, a.length = b.length →
    Ref.leWord a = Ref.leWord b → a = b := by
  induction a with
  | nil =>
    intro b hl _
    exact (List.length_eq_zero.mp hl.symm).symm
  | cons x xs ih =>
    intro b hl h
    cases b with
    | nil => simp at hl
    | cons y ys =>
      rw [leWord_cons, leWord_cons] at h
      have hx := x.isLt
      have hy := y.isLt
      have h1 : x.val = y.val := by omega
      have h2 : Ref.leWord xs = Ref.leWord ys := by omega
      rw [Fin.ext h1, ih ys (by simpa using hl) h2]

theorem xorBytes_eq_leWord (bs : List Byte) : ∀ sh : Nat,
    Ref.xorBytes bs sh = Ref.leWord bs <<< sh := by
  induction bs with
  | nil => intro sh; simp [Ref.xorBytes, Ref.leWord]
  | cons b bs ih =>
    intro sh
    have hb : b.val <<< sh < 2 ^ (sh + 8) := by
      rw [Nat.shiftLeft_eq, Nat.pow_add, Nat.mul_comm]
      exact Nat.mul_lt_mul_of_pos_left b.isLt (Nat.pow_pos (by decide))
    rw [Ref.xorBytes, ih, xor_shiftLeft_eq_add _ _ _ hb, leWord_cons, Nat.shiftLeft_eq,
      Nat.shiftLeft_eq, Nat.pow_add]
    ring

theorem xorBytes_zero (bs : List Byte) : Ref.xorBytes bs 0 = Ref.leWord bs := by
  rw [xorBytes_eq_leWord, Nat.shiftLeft_zero]

theorem leWord_lt_word (bs : List Byte) (h : bs.length ≤ 8) : Ref.leWord bs < 2 ^ 64 :=
  Nat.lt_of_lt_of_le (leWord_lt bs)
    (Nat.le_trans (Nat.pow_le_pow_right (by decide) h) (by norm_num))

theorem mixK1_lt (k : Nat) : Ref.mixK1 k < 2 ^ 64 := by
  simp only [Ref.mixK1]
  exact u64_lt _

theorem mixK2_lt (k : Nat) : Ref.mixK2 k < 2 ^ 64 := by
  simp only [Ref.mixK2]
  exact u64_lt _

theorem mixK1_inj (k k' : Nat) (hk : k < 2 ^ 64) (hk' : k' < 2 ^ 64)
    (h : Ref.mixK1 k = Ref.mixK1 k') : k = k' := by
  simp only [Ref.mixK1, Ref.rotateLeft, Nat.reduceSub] at h
  have h1 := u64_mul_inj _ (by decide) _ _ (rotl_lt 31 33 _ (u64_lt _)) (rotl_lt 31 33 _ (u64_lt _)) h
  have h2 := rotl_inj 31 33 rfl _ _ (u64_lt _) (u64_lt _) h1
  exact u64_mul_inj _ (by decide) _ _ hk hk' h2

theorem mixK2_inj (k k' : Nat) (hk : k < 2 ^ 64) (hk' : k' < 2 ^ 64)
    (h : Ref.mixK2 k = Ref.mixK2 k') : k = k' := by
  simp only [Ref.mixK2, Ref.rotateLeft, Nat.reduceSub] at h
  have h1 := u64_mul_inj _ (by decide) _ _ (rotl_lt 33 31 _ (u64_lt _)) (rotl_lt 33 31 _ (u64_lt _)) h
  have h2 := rotl_inj 33 31 rfl _ _ (u64_lt _) (u64_lt _) h1
  exact u64_mul_inj _ (by decide) _ _ hk hk' h2

theorem blockWords_lt (h : Nat × Nat) (k1 k2 : Nat) :
    (Ref.blockWords h k1 k2).1 < 2 ^ 64 ∧ (Ref.blockWords h k1 k2).2 < 2 ^ 64 := by
  simp only [Ref.blockWords]
  exact ⟨u64_lt _, u64_lt _⟩

theorem blockWords_inj (h : Nat × Nat) (hh1 : h.1 < 2 ^ 64) (hh2 : h.2 < 2 ^ 64)
    (k1 k2 k1' k2' : Nat) (hk1 : k1 < 2 ^ 64) (hk2 : k2 < 2 ^ 64) (hk1' : k1' < 2 ^ 64)
    (hk2' : k2' < 2 ^ 64) (e : Ref.blockWords h k1 k2 = Ref.blockWords h k1' k2') :
    k1 = k1' ∧ k2 = k2' := by
  have x1 : ∀ k, h.1 ^^^ Ref.mixK1 k < 2 ^ 64 := fun k => Nat.xor_lt_two_pow hh1 (mixK1_lt k)
  have x2 : ∀ k, h.2 ^^^ Ref.mixK2 k < 2 ^ 64 := fun k => Nat.xor_lt_two_pow hh2 (mixK2_lt k)
  have e1 := congrArg Prod.fst e
  simp only [Ref.blockWords, Ref.rotateLeft, Nat.reduceSub] at e1
  have a1 := u64_add_right_inj _ _ _ (u64_lt _) (u64_lt _) e1
  have a2 := u64_mul_inj 5 (by decide) _ _ (u64_lt _) (u64_lt _) a1
  have a3 := u64_add_right_inj _ _ _ (rotl_lt 27 37 _ (x1 _)) (rotl_lt 27 37 _ (x1 _)) a2
  have a4 := rotl_inj 27 37 rfl _ _ (x1 _) (x1 _) a3
  have a5 : k1 = k1' := mixK1_inj _ _ hk1 hk1' (Nat.xor_right_inj.mp a4)
  subst a5
  have e2 := congrArg Prod.snd e
  simp only [Ref.blockWords, Ref.rotateLeft, Nat.reduceSub] at e2
  have b1 := u64_add_right_inj _ _ _ (u64_lt _) (u64_lt _) e2
  have b2 := u64_mul_inj 5 (by decide) _ _ (u64_lt _) (u64_lt _) b1
  have b3 := u64_add_right_inj _ _ _ (rotl_lt 31 33 _ (x2 _)) (rotl_lt 31 33 _ (x2 _)) b2
  have b4 := rotl_inj 31 33 rfl _ _ (x2 _) (x2 _) b3
  exact ⟨rfl, mixK2_inj _ _ hk2 hk2' (Nat.xor_right_inj.mp b4)⟩

theorem blockTransform_inj (h : Nat × Nat) (hh1 : h.1 < 2 ^ 64) (hh2 : h.2 < 2 ^ 64)
    (a b : List Byte) (ha : a.length = 16) (hb : b.length = 16)
    (e : Ref.blockTransform h a = Ref.blockTransform h b) : a = b := by
  simp only [Ref.blockTransform] at e
  have la : (a.take 8).length = 8 := by rw [List.length_take]; omega
  have lb : (b.take 8).length = 8 := by rw [List.length_take]; omega
  have la' : ((a.drop 8).take 8).length = 8 := by
    rw [List.length_take, List.length_drop]; omega
  have lb' : ((b.drop 8).take 8).length = 8 := by
    rw [List.length_take, List.length_drop]; omega
  obtain ⟨e1, e2⟩ := blockWords_inj h hh1 hh2 _ _ _ _
    (leWord_lt_word _ (by omega)) (leWord_lt_word _ (by omega))
    (leWord_lt_word _ (by omega)) (leWord_lt_word _ (by omega)) e
  have t1 := leWord_inj _ _ (by rw [la, lb]) e1
  have t2 := leWord_inj _ _ (by rw [la', lb']) e2
  have da : (a.drop 8).take 8 = a.drop 8 :=
    List.take_of_length_le (by rw [List.length_drop]; omega)
  have db : (b.drop 8).take 8 = b.drop 8 :=
    List.take_of_length_le (by rw [List.length_drop]; omega)
  rw [da, db] at t2
  rw [← List.take_append_drop 8 a, ← List.take_append_drop 8 b, t1, t2]

theorem tailMix_lt (h : Nat × Nat) (hh1 : h.1 < 2 ^ 64) (hh2 : h.2 < 2 ^ 64) (t : List Byte) :
    (Ref.tailMix h t).1 < 2 ^ 64 ∧ (Ref.tailMix h t).2 < 2 ^ 64 := by
  simp only [Ref.tailMix]
  constructor
  · split
    · exact Nat.xor_lt_two_pow hh1 (mixK1_lt _)
    · exact hh1
  · split
    · exact Nat.xor_lt_two_pow hh2 (mixK2_lt _)
    · exact hh2

theorem tailMix_nil (h : Nat × Nat) : Ref.tailMix h [] = h := by
  simp [Ref.tailMix]

theorem tailMix_inj (h : Nat × Nat) (a b : List Byte) (hab : a.length = b.length)
    (ha : a.length ≤ 15) (e : Ref.tailMix h a = Ref.tailMix h b) : a = b := by
  have e1 := congrArg Prod.fst e
  have e2 := congrArg Prod.snd e
  simp only [Ref.tailMix, ← hab] at e1 e2
  have ht : a.take 8 = b.take 8 := by
    by_cases h1 : 1 ≤ a.length
    · rw [if_pos h1, if_pos h1, Nat.xor_right_inj, xorBytes_zero, xorBytes_zero] at e1
      have k := mixK1_inj _ _ (leWord_lt_word _ (by rw [List.length_take]; omega))
        (leWord_lt_word _ (by rw [List.length_take]; omega)) e1
      exact leWord_inj _ _ (by rw [List.length_take, List.length_take, hab]) k
    · have za : a = [] := List.length_eq_zero.mp (by omega)
      have zb : b = [] := List.length_eq_zero.mp (by omega)
      rw [za, zb]
  have hd : a.drop 8 = b.drop 8 := by
    by_cases h9 : 9 ≤ a.length
    · rw [if_pos h9, if_pos h9, Nat.xor_right_inj, xorBytes_zero, xorBytes_zero] at e2
      have k := mixK2_inj _ _ (leWord_lt_word _ (by rw [List.length_drop]; omega))
        (leWord_lt_word _ (by rw [List.length_drop]; omega)) e2
      exact leWord_inj _ _ (by rw [List.length_drop, List.length_drop, hab]) k
    · rw [List.drop_of_length_le (by omega), List.drop_of_length_le (by omega)]
  rw [← List.take_append_drop 8 a, ← List.take_append_drop 8 b, ht, hd]

theorem ref_fmix64_inj (x y : Nat) (hx : x < 2 ^ 64) (hy : y < 2 ^ 64)
    (h : Ref.fmix64 x = Ref.fmix64 y) : x = y := by
  rw [← fmix64_eq, ← fmix64_eq] at h
  exact fmix64_inj x y hx hy h

theorem ref_fmix64_lt (x : Nat) : Ref.fmix64 x < 2 ^ 64 := by
  rw [← fmix64_eq]
  exact fmix64_lt x

theorem finalize_inj (g g' : Nat × Nat) (t t' : List Byte) (n : Nat)
    (hg : (Ref.tailMix g t).1 < 2 ^ 64 ∧ (Ref.tailMix g t).2 < 2 ^ 64)
    (hg' : (Ref.tailMix g' t').1 < 2 ^ 64 ∧ (Ref.tailMix g' t').2 < 2 ^ 64)
    (e : Ref.finalize g t n = Ref.finalize g' t' n) : Ref.tailMix g t = Ref.tailMix g' t' := by
  have e1 := congrArg Prod.fst e
  have e2 := congrArg Prod.snd e
  simp only [Ref.finalize] at e1 e2
  generalize Ref.tailMix g t = m at *
  generalize Ref.tailMix g' t' = m' at *
  have xb : ∀ v, v < 2 ^ 64 → v ^^^ u64 n < 2 ^ 64 := fun v hv => Nat.xor_lt_two_pow hv (u64_lt _)
  rw [e1] at e2
  have f2 := u64_add_right_inj _ _ _ (ref_fmix64_lt _) (ref_fmix64_lt _) e2
  rw [f2] at e1
  have f1 := u64_add_right_inj _ _ _ (ref_fmix64_lt _) (ref_fmix64_lt _) e1
  have p1 := ref_fmix64_inj _ _ (u64_lt _) (u64_lt _) f1
  have p2 := ref_fmix64_inj _ _ (u64_lt _) (u64_lt _) f2
  rw [p1] at p2
  have q2 := u64_add_right_inj _ _ _ (xb _ hg.2) (xb _ hg'.2) p2
  rw [q2] at p1
  have q1 := u64_add_right_inj _ _ _ (xb _ hg.1) (xb _ hg'.1) p1
  exact Prod.ext (Nat.xor_left_inj.mp q1) (Nat.xor_left_inj.mp q2)

theorem Sum128WithSeed_eq_sum128 (data : List Byte) (seed : Nat) :
    Sum128WithSeed data seed = some (Ref.sum128 data seed) := by
  obtain ⟨d', hw, hr⟩ := represents_write seed [] (New128WithSeed seed) data (represents_new seed)
  rw [Sum128WithSeed, hw, Option.map_some', represents_Sum128 seed _ d' hr]
  rfl

/-! ## The writer with checked accesses -/

theorem indexAt_of_lt (p : List Byte) (i : Nat) (h : i < p.length) :
    indexAt p (i : Int) = some p[i] := by
  have hc : (0 : Int) ≤ (i : Int) ∧ (i : Int) < (p.length : Int) := by omega
  simp only [indexAt, hc, and_self, if_true, Int.toNat_ofNat]
  exact List.getElem?_eq_getElem h

theorem drop_take_succ (p : List Byte) (k n : Nat) (h : k < p.length) :
    (p.drop k).take (n + 1) = p[k] :: (p.drop (k + 1)).take n := by
  rw [List.drop_eq_getElem_cons h, List.take_succ_cons]

theorem fillChecked_range' (p : List Byte) : ∀ (n k : Nat) (d : Digest128),
    k + n ≤ p.length →
    (List.range' k n).foldlM (fillStep p) d = Digest128.fill d ((p.drop k).take n) := by
  intro n
  induction n with
  | zero => intro k d _; rfl
  | succ n ih =>
    intro k d h
    have hk : k < p.length := by omega
    rw [List.range'_succ, List.foldlM_cons, drop_take_succ p k n hk, Digest128.fill, fillStep,
      indexAt_of_lt p k hk]
    cases hs : d.store d.tail p[k] with
    | none => simp only [hs]; rfl
    | some d1 =>
      simp only [hs, bind, Option.bind]
      exact ih (k + 1) _ (by omega)

theorem fillChecked_eq (d : Digest128) (p : List Byte) : d.fillChecked p = d.fill p := by
  rw [Digest128.fillChecked, List.range_eq_range', fillChecked_range' p p.length 0 d (by omega),
    List.drop_zero, List.take_of_length_le (Nat.le_refl _)]

theorem keepChecked_range' (t : List Byte) : ∀ (n k : Nat) (d : Digest128),
    k + n ≤ t.length →
    (List.range' k n).foldlM (keepStep t) d = Digest128.keep d ((t.drop k).take n) (k : Int) := by
  intro n
  induction n with
  | zero => intro k d _; rfl
  | succ n ih =>
    intro k d h
    have hk : k < t.length := by omega
    rw [List.range'_succ, List.foldlM_cons, drop_take_succ t k n hk, Digest128.keep, keepStep,
      indexAt_of_lt t k hk]
    cases hs : d.store (k : Int) t[k] with
    | none => simp only [hs]; rfl
    | some d1 =>
      have := ih (k + 1) d1 (by omega)
      rw [Nat.cast_succ] at this
      simp only [hs, bind, Option.bind]
      exact this

theorem keepChecked_eq (d : Digest128) (t : List Byte) (h : d.tail = (t.length : Int)) :
    d.keepChecked t = d.keep t 0 := by
  have ht : d.tail.toNat = t.length := by omega
  rw [Digest128.keepChecked, ht, List.range_eq_range',
    keepChecked_range' t t.length 0 d (by omega), List.drop_zero,
    List.take_of_length_le (Nat.le_refl _)]
  rfl

theorem loadWords_of_le (p : List Byte) (i : Nat) (h : (i + 1) * 16 ≤ p.length) :
    loadWords p ((i : Int) * 16) = some (loadWord p (i * 16), loadWord p (i * 16 + 8)) := by
  have hc : (0 : Int) ≤ (i : Int) * 16 ∧ (i : Int) * 16 + 16 ≤ (p.length : Int) := by omega
  have ht : ((i : Int) * 16).toNat = i * 16 := by omega
  simp only [loadWords, hc, and_self, if_true, ht]

theorem bmixChecked_range' (p : List Byte) : ∀ (n k : Nat) (h : Nat × Nat),
    (k + n) * 16 ≤ p.length →
    (List.range' k n).foldlM (mixStep p) h
      = some ((List.range' k n).foldl
          (fun h i => bmixBody h.1 h.2 (loadWord p (i * 16)) (loadWord p (i * 16 + 8))) h) := by
  intro n
  induction n with
  | zero => intro k h _; rfl
  | succ n ih =>
    intro k h hle
    rw [List.range'_succ, List.foldlM_cons, List.foldl_cons, mixStep,
      loadWords_of_le p k (by omega)]
    simp only [bind, Option.bind]
    exact ih (k + 1) _ (by omega)

theorem sliceFrom_of_le (p : List Byte) (n : Nat) (h : n ≤ p.length) :
    sliceFrom p (n : Int) = some (p.drop n) := by
  have hc : (0 : Int) ≤ (n : Int) ∧ (n : Int) ≤ (p.length : Int) := by omega
  simp only [sliceFrom, hc, and_self, if_true, Int.toNat_ofNat]

theorem sliceTo_of_le (p : List Byte) (n : Nat) (h : n ≤ p.length) :
    sliceTo p (n : Int) = some (p.take n) := by
  have hc : (0 : Int) ≤ (n : Int) ∧ (n : Int) ≤ (p.length : Int) := by omega
  simp only [sliceTo, hc, and_self, if_true, Int.toNat_ofNat]

theorem bmixChecked_eq (d : Digest128) (p : List Byte) : d.bmixChecked p = some (d.bmix p) := by
  have hs : ((p.length / 16 : Nat) : Int) * d.Size = ((p.length / 16 * 16 : Nat) : Int) := by
    simp [Digest128.Size]
  simp only [Digest128.bmixChecked, Digest128.bmix, bmixLoop, List.range_eq_range',
    bmixChecked_range' p (p.length / 16) 0 (d.h1, d.h2) (by omega), hs,
    sliceFrom_of_le p (p.length / 16 * 16) (by omega)]

theorem writeBlocksChecked_eq (d : Digest128) (p : List Byte) :
    d.writeBlocksChecked p = d.writeBlocks p := by
  simp only [Digest128.writeBlocksChecked, bmixChecked_eq, Digest128.writeBlocks]
  exact keepChecked_eq _ _ rfl

theorem WriteChecked_eq (d : Digest128) (p : List Byte) : d.WriteChecked p = d.Write p := by
  simp only [Digest128.WriteChecked, Digest128.Write, fillChecked_eq, writeBlocksChecked_eq,
    Digest128.Size]
  by_cases hpos : 0 < d.tail
  · simp only [hpos, if_true]
    by_cases hfit : (p.length : Int) ≤ 16 - d.tail
    · simp only [hfit, if_true]
    · simp only [hfit, if_false]
      by_cases hneg : 16 - d.tail < 0
      · have hn : sliceTo p (16 - d.tail) = none := by
          have : ¬ ((0 : Int) ≤ 16 - d.tail ∧ 16 - d.tail ≤ (p.length : Int)) := by omega
          simp only [sliceTo, this, if_false]
        simp only [hneg, if_true, hn]
      · have e : 16 - d.tail = (((16 - d.tail).toNat : Nat) : Int) := by omega
        have hle : (16 - d.tail).toNat ≤ p.length := by omega
        have h1 : sliceTo p (16 - d.tail) = some (p.take (16 - d.tail).toNat) := by
          conv_lhs => rw [e]
          exact sliceTo_of_le p _ hle
        have h2 : sliceFrom p (16 - d.tail) = some (p.drop (16 - d.tail).toNat) := by
          conv_lhs => rw [e]
          exact sliceFrom_of_le p _ hle
        simp only [hneg, if_false, h1, h2]
  · simp only [hpos, if_false]

/-! ## The claims -/

/-- Claim C1 (chunk invariance). For every seed and every list of chunks `cs`
(empty chunks allowed), writing the chunks one after another to
`New128WithSeed seed` succeeds, and `Sum128` of the resulting digest is the
value `Sum128WithSeed` returns on the concatenation of `cs`. In particular
`New128WithSeed(seed).Write(P).Write(X).Sum128() = Sum128WithSeed(P ++ X, seed)`
for every prefix `P` and suffix `X`. -/
theorem chunk_invariance (seed : Nat) :
    (∀ cs : List (List Byte),
      ∃ h, (writeAll (New128WithSeed seed) cs).map Digest128.Sum128 = some h
        ∧ Sum128WithSeed cs.flatten seed = some h)
    ∧ (∀ P X : List Byte,
      ∃ h, (((New128WithSeed seed).Write P).bind (fun d => d.Write X)).map Digest128.Sum128
          = some h
        ∧ Sum128WithSeed (P ++ X) seed = some h) := by
  constructor
  · intro cs
    obtain ⟨d', hw, hr⟩ :=
      writeAll_represents seed cs [] (New128WithSeed seed) (represents_new seed)
    obtain ⟨d1, hw1, hr1⟩ :=
      represents_write seed [] (New128WithSeed seed) cs.flatten (represents_new seed)
    refine ⟨Ref.sum128 cs.flatten seed, ?_, ?_⟩
    · rw [hw, Option.map_some', represents_Sum128 seed _ d' hr]
      rfl
    · rw [Sum128WithSeed, hw1, Option.map_some', represents_Sum128 seed _ d1 hr1]
      rfl
  · intro P X
    obtain ⟨d1, hw1, hr1⟩ :=
      represents_write seed [] (New128WithSeed seed) P (represents_new seed)
    obtain ⟨d2, hw2, hr2⟩ := represents_write seed ([] ++ P) d1 X hr1
    obtain ⟨d3, hw3, hr3⟩ :=
      represents_write seed [] (New128WithSeed seed) (P ++ X) (represents_new seed)
    refine ⟨Ref.sum128 (P ++ X) seed, ?_, ?_⟩
    · rw [hw1, Option.some_bind, hw2, Option.map_some', represents_Sum128 seed _ d2 hr2]
      rfl
    · rw [Sum128WithSeed, hw3, Option.map_some', represents_Sum128 seed _ d3 hr3]
      rfl

/-- Claim C2 (one-shot reference). For every seed and byte sequence `data` of
length `n`, `Sum128WithSeed data seed` returns the section 4.3 finalization of
the accumulators obtained from `(seed, seed)` by folding the section 4.2 block
transform over the `n / 16` complete 16-byte blocks of `data` (two
little-endian words each), with the last `n % 16` bytes of `data` as the tail
and `n` as the total length. -/
theorem Sum128WithSeed_eq_reference (data : List Byte) (seed : Nat) :
    Sum128WithSeed data seed
        = some (Ref.finalize (Ref.foldBlocks (data.length / 16) (seed, seed) data)
            (data.drop (data.length / 16 * 16)) data.length)
      ∧ (data.drop (data.length / 16 * 16)).length = data.length % 16 := by
  obtain ⟨d', hw, hr⟩ := represents_write seed [] (New128WithSeed seed) data (represents_new seed)
  constructor
  · rw [Sum128WithSeed, hw, Option.map_some', represents_Sum128 seed _ d' hr]
    rfl
  · rw [List.length_drop]
    omega

/-- Claim C3 (tail-length invariant). A fresh digest has `tail = 0`; `Write`
on a digest with `0 ≤ tail ≤ 15` returns a digest with `0 ≤ tail ≤ 15`; hence
every digest reached from a constructor by any sequence of `Write` calls has
`tail` in `0..15`, never 16. -/
theorem tail_invariant :
    (∀ seed : Nat, (New128WithSeed seed).tail = 0)
    ∧ (∀ (d : Digest128) (p : List Byte), 0 ≤ d.tail → d.tail ≤ 15 →
        ∃ d', d.Write p = some d' ∧ 0 ≤ d'.tail ∧ d'.tail ≤ 15)
    ∧ (∀ (seed : Nat) (cs : List (List Byte)),
        ∃ d', writeAll (New128WithSeed seed) cs = some d' ∧ 0 ≤ d'.tail ∧ d'.tail ≤ 15) := by
  refine ⟨fun _ => rfl, ?_, ?_⟩
  · intro d p h0 h15
    obtain ⟨d', hw, _, _, htail, _⟩ := Write_spec d p d.tail.toNat (by omega) (by omega)
    exact ⟨d', hw, by omega, by omega⟩
  · intro seed cs
    obtain ⟨d', hw, hr⟩ :=
      writeAll_represents seed cs [] (New128WithSeed seed) (represents_new seed)
    exact ⟨d', hw, represents_tail seed _ d' hr⟩

theorem tail_invariant_witness :
    ∃ d', (New128WithSeed 7).Write [1, 2, 3] = some d' ∧ 0 ≤ d'.tail ∧ d'.tail ≤ 15 :=
  tail_invariant.2.1 (New128WithSeed 7) [1, 2, 3] (by decide) (by decide)

/-- Claim C4 (`Write` is total on reachable digests). For a digest with
`0 ≤ tail ≤ 15` and any byte sequence `p`, `Write` returns a digest, also when
every index expression (`p[i]`, `add[i]`, `tail[i]`, `&p[i*16]` with the 16
bytes read through it) and every slice expression (`p[:nfree]`, `p[nfree:]`,
`p[nblocks*16:]`) is checked against the length of its operand, next to the
checks on `buf[d.tail]`, `buf[i]` and in `bmixbuf`: `WriteChecked` and `Write`
return the same digest. On the paths that call `bmixbuf` (a pending tail that
`p` fills up), the slice `p[:nfree]` is in bounds and the fill loop leaves
`tail` exactly 16, so the "expected full block" panic is not reached. -/
theorem Write_total (d : Digest128) (p : List Byte) (h0 : 0 ≤ d.tail) (h15 : d.tail ≤ 15) :
    (∃ d', d.WriteChecked p = some d' ∧ d.Write p = some d')
      ∧ (0 < d.tail → 16 - d.tail ≤ (p.length : Int) →
          sliceTo p (16 - d.tail) = some (p.take (16 - d.tail).toNat)
            ∧ ∃ d1, Digest128.fill { d with clen := wrapInt (d.clen + (p.length : Int)) }
                  (p.take (16 - d.tail).toNat) = some d1
              ∧ Digest128.fillChecked { d with clen := wrapInt (d.clen + (p.length : Int)) }
                  (p.take (16 - d.tail).toNat) = some d1
              ∧ d1.tail = 16 ∧ ∃ d2, d1.bmixbuf = some d2) := by
  constructor
  · obtain ⟨d', hw, _⟩ := Write_spec d p d.tail.toNat (by omega) (by omega)
    exact ⟨d', by rw [WriteChecked_eq]; exact hw, hw⟩
  · intro hpos hlen
    have hl : (p.take (16 - d.tail).toNat).length = (16 - d.tail).toNat := by
      rw [List.length_take]; omega
    obtain ⟨d1, hfill, htail1, _⟩ :=
      fill_spec (p.take (16 - d.tail).toNat)
        { d with clen := wrapInt (d.clen + (p.length : Int)) } d.tail.toNat
        (by show d.tail = _; omega) (by omega)
    have ht : d1.tail = 16 := by rw [htail1, hl]; omega
    have hs : sliceTo p (16 - d.tail) = some (p.take (16 - d.tail).toNat) := by
      have e : 16 - d.tail = (((16 - d.tail).toNat : Nat) : Int) := by omega
      conv_lhs => rw [e]
      exact sliceTo_of_le p _ (by omega)
    exact ⟨hs, d1, hfill, by rw [fillChecked_eq]; exact hfill, ht, _, bmixbuf_eq d1 ht⟩

theorem Write_total_witness :
    (0 ≤ pendingDigest.tail ∧ pendingDigest.tail ≤ 15 ∧ 0 < pendingDigest.tail
        ∧ 16 - pendingDigest.tail ≤ ((hello ++ hello ++ hello).length : Int))
      ∧ (∃ d', pendingDigest.WriteChecked (hello ++ hello ++ hello) = some d'
          ∧ pendingDigest.Write (hello ++ hello ++ hello) = some d')
      ∧ sliceTo (hello ++ hello ++ hello) (16 - pendingDigest.tail)
          = some ((hello ++ hello ++ hello).take (16 - pendingDigest.tail).toNat)
      ∧ ∃ d1, Digest128.fill
            { pendingDigest with
              clen := wrapInt (pendingDigest.clen + ((hello ++ hello ++ hello).length : Int)) }
            ((hello ++ hello ++ hello).take (16 - pendingDigest.tail).toNat) = some d1
          ∧ Digest128.fillChecked
            { pendingDigest with
              clen := wrapInt (pendingDigest.clen + ((hello ++ hello ++ hello).length : Int)) }
            ((hello ++ hello ++ hello).take (16 - pendingDigest.tail).toNat) = some d1
          ∧ d1.tail = 16 ∧ ∃ d2, d1.bmixbuf = some d2 :=
  ⟨by simp [pendingDigest, hello],
   (Write_total pendingDigest (hello ++ hello ++ hello) (by simp [pendingDigest])
      (by simp [pendingDigest])).1,
   (Write_total pendingDigest (hello ++ hello ++ hello) (by simp [pendingDigest])
      (by simp [pendingDigest])).2 (by simp [pendingDigest]) (by simp [pendingDigest, hello])⟩

/-- Claim C5 (serialization). For every digest `d` and byte sequence `b`,
`d.Sum b` is `b` followed by the 8-byte big-endian encoding of `h1` and then
the 8-byte big-endian encoding of `h2`, where `(h1, h2) = d.Sum128`; the
encodings have eight bytes each and decode back to `h1` and `h2`. -/
theorem Sum_serialization (d : Digest128) (b : List Byte) :
    d.Sum b = b ++ beBytes d.Sum128.1 ++ beBytes d.Sum128.2
      ∧ (beBytes d.Sum128.1).length = 8 ∧ (beBytes d.Sum128.2).length = 8
      ∧ beWord (beBytes d.Sum128.1) = d.Sum128.1
      ∧ beWord (beBytes d.Sum128.2) = d.Sum128.2 := by
  refine ⟨?_, by simp [beBytes], by simp [beBytes],
    beWord_beBytes _ (Sum128_lt d).1, beWord_beBytes _ (Sum128_lt d).2⟩
  rw [beBytes_eq, beBytes_eq, Digest128.Sum]
  simp

/-- Claim C6 (known vector). `Sum128WithSeed` of the empty byte sequence with
seed 0 is `(0, 0)`, and so is `Sum128` of the empty byte sequence. -/
theorem empty_vector : Sum128WithSeed [] 0 = some (0, 0) ∧ Sum128 [] = some (0, 0) := by
  constructor <;> with_unfolding_all decide

/-- Claim C7, as stated, fails when the byte count overflows the Go `int`:
writing one byte to a digest with `clen = 2^63 - 1` leaves `clen = -2^63`,
not `2^63`. -/
theorem Write_clen_overflow :
    (0 ≤ maxLenDigest.tail ∧ maxLenDigest.tail ≤ 15 ∧ maxLenDigest.clen = 2 ^ 63 - 1)
      ∧ ∃ d', maxLenDigest.Write [0] = some d' ∧ d'.clen = -2 ^ 63
          ∧ d'.clen ≠ maxLenDigest.clen + (([0] : List Byte).length : Int) := by
  refine ⟨by decide, ?_⟩
  obtain ⟨d', hw, hclen, _⟩ := Write_spec maxLenDigest [0] 0 rfl (by omega)
  have h : d'.clen = -2 ^ 63 := by
    rw [hclen]
    with_unfolding_all decide
  refine ⟨d', hw, h, ?_⟩
  rw [h]
  decide

/-- Claim C7 (total length accounting), amended. For a digest with
`0 ≤ tail ≤ 15` and any byte sequence `p` (the empty one included), `Write`
returns a digest whose `clen` is `d.clen + len(p)` in Go `int` arithmetic, on
every path: the exact sum whenever it fits in an `int`, its two's-complement
wrap otherwise. -/
theorem Write_clen (d : Digest128) (p : List Byte) (h0 : 0 ≤ d.tail) (h15 : d.tail ≤ 15) :
    ∃ d', d.Write p = some d' ∧ d'.clen = wrapInt (d.clen + (p.length : Int))
      ∧ (-2 ^ 63 ≤ d.clen → d.clen + (p.length : Int) < 2 ^ 63 →
          d'.clen = d.clen + (p.length : Int)) := by
  obtain ⟨d', hw, hclen, _⟩ := Write_spec d p d.tail.toNat (by omega) (by omega)
  refine ⟨d', hw, hclen, ?_⟩
  intro hlo hhi
  rw [hclen]
  exact wrapInt_of_lt _ (by omega) hhi

theorem Write_clen_witness :
    ∃ d', (New128WithSeed 7).Write [1, 2, 3] = some d'
      ∧ d'.clen = wrapInt ((New128WithSeed 7).clen + (([1, 2, 3] : List Byte).length : Int))
      ∧ (-2 ^ 63 ≤ (New128WithSeed 7).clen →
          (New128WithSeed 7).clen + (([1, 2, 3] : List Byte).length : Int) < 2 ^ 63 →
          d'.clen = (New128WithSeed 7).clen + (([1, 2, 3] : List Byte).length : Int)) :=
  Write_clen (New128WithSeed 7) [1, 2, 3] (by decide) (by decide)

/-- Claim C8 (the two block-mixing paths agree). For digests `d` and `e`
with the same accumulators, `e.tail = 16`, and `B` the 16 bytes of `e.buf`:
`bmixbuf` on `e` succeeds and resets `tail` to 0, `bmix` on `d` with input
`B` returns an empty remainder, and both produce the same `(h1, h2)`. -/
theorem bmix_bmixbuf_agree (d e : Digest128) (h1 : d.h1 = e.h1) (h2 : d.h2 = e.h2)
    (ht : e.tail = 16) :
    ∃ e', e.bmixbuf = some e' ∧ e'.tail = 0
      ∧ (d.bmix (List.ofFn e.buf)).2 = []
      ∧ (d.bmix (List.ofFn e.buf)).1.h1 = e'.h1
      ∧ (d.bmix (List.ofFn e.buf)).1.h2 = e'.h2 := by
  have hl : (prefixOf e.buf 16).length = 16 := prefixOf_length _ _
  have hfold : Ref.foldBlocks ((prefixOf e.buf 16).length / 16) (d.h1, d.h2) (prefixOf e.buf 16)
      = Ref.blockTransform (e.h1, e.h2) (prefixOf e.buf 16) := by
    have : (prefixOf e.buf 16).length / 16 = 0 + 1 := by rw [hl]
    rw [this, foldBlocks_succ, foldBlocks_zero, List.take_of_length_le (by omega), h1, h2]
  refine ⟨_, bmixbuf_eq e ht, rfl, ?_, ?_, ?_⟩
  · rw [ofFn_eq_prefixOf, bmix_eq]
    exact List.drop_of_length_le (by rw [hl])
  · rw [ofFn_eq_prefixOf, bmix_eq, hfold]
  · rw [ofFn_eq_prefixOf, bmix_eq, hfold]

theorem bmix_bmixbuf_agree_witness :
    ∃ e', fullBufDigest.bmixbuf = some e' ∧ e'.tail = 0
      ∧ (emptyBufDigest.bmix (List.ofFn fullBufDigest.buf)).2 = []
      ∧ (emptyBufDigest.bmix (List.ofFn fullBufDigest.buf)).1.h1 = e'.h1
      ∧ (emptyBufDigest.bmix (List.ofFn fullBufDigest.buf)).1.h2 = e'.h2 :=
  bmix_bmixbuf_agree emptyBufDigest fullBufDigest rfl rfl rfl
/-- Claim C9 (seed-zero equivalence). `Sum128 data = Sum128WithSeed data 0`
for every `data`, and `New128 = New128WithSeed 0`, a digest with
`h1 = h2 = 0`, `tail = 0` and `clen = 0`. -/
theorem seed_zero_equivalence :
    (∀ data : List Byte, Sum128 data = Sum128WithSeed data 0)
      ∧ New128 = New128WithSeed 0
      ∧ New128.h1 = 0 ∧ New128.h2 = 0 ∧ New128.tail = 0 ∧ New128.clen = 0 :=
  ⟨fun _ => rfl, rfl, rfl, rfl, rfl, rfl⟩

/-- Claim C10 (`Size`). `d.Size() = 16` for every digest, `d.Sum(b)` is
`d.Size()` bytes longer than `b`, and `d.Sum` of the empty sequence has
exactly `d.Size()` bytes. -/
theorem Size_eq_Sum_length (d : Digest128) (b : List Byte) :
    d.Size = 16 ∧ ((d.Sum b).length : Int) = (b.length : Int) + d.Size
      ∧ ((d.Sum []).length : Int) = d.Size := by
  refine ⟨rfl, ?_, ?_⟩
  · simp [Digest128.Size, Digest128.Sum]
  · simp [Digest128.Size, Digest128.Sum]
/-- Claim C11 (`bmixbuf` fails exactly when the tail is not a full block).
For every digest `d`, `d.bmixbuf()` panics (returns no result) if and only if
`d.tail ≠ 16`; when `d.tail = 16` it returns `d` with `(h1, h2)` replaced by
one application of the block transform to the 16 bytes of `buf`, `tail` set
to 0, and `buf`, `clen` and `seed` unchanged. -/
theorem bmixbuf_panics_iff (d : Digest128) :
    (d.bmixbuf = none ↔ d.tail ≠ 16)
      ∧ (d.tail = 16 →
          ∃ d', d.bmixbuf = some d'
            ∧ (d'.h1, d'.h2) = Ref.blockTransform (d.h1, d.h2) (List.ofFn d.buf)
            ∧ d'.tail = 0 ∧ d'.buf = d.buf ∧ d'.clen = d.clen ∧ d'.seed = d.seed) := by
  constructor
  · constructor
    · intro hnone h16
      rw [bmixbuf_eq d h16] at hnone
      exact Option.noConfusion hnone
    · intro hne
      have : d.tail ≠ d.Size := hne
      simp only [Digest128.bmixbuf]
      exact if_pos this
  · intro h16
    exact ⟨_, bmixbuf_eq d h16, by rw [ofFn_eq_prefixOf], rfl, rfl, rfl, rfl⟩

theorem bmixbuf_panics_iff_witness :
    ∃ d', fullBufDigest.bmixbuf = some d'
      ∧ (d'.h1, d'.h2)
          = Ref.blockTransform (fullBufDigest.h1, fullBufDigest.h2) (List.ofFn fullBufDigest.buf)
      ∧ d'.tail = 0 ∧ d'.buf = fullBufDigest.buf ∧ d'.clen = fullBufDigest.clen
      ∧ d'.seed = fullBufDigest.seed :=
  (bmixbuf_panics_iff fullBufDigest).2 rfl

/-- Claim C13 (writing nothing is the identity). For every digest `d` with
`0 ≤ d.tail ≤ 15` (and `clen` a Go `int`), `d.Write` of the empty byte
sequence returns `d` itself, equal in every field, both when `d.tail = 0` and
when `d.tail > 0`. -/
theorem Write_nil (d : Digest128) (h0 : 0 ≤ d.tail) (h15 : d.tail ≤ 15)
    (hlo : -2 ^ 63 ≤ d.clen) (hhi : d.clen < 2 ^ 63) : d.Write [] = some d := by
  have hclen : wrapInt (d.clen + (([] : List Byte).length : Int)) = d.clen := by
    simp only [List.length_nil, Nat.cast_zero, Int.add_zero]
    exact wrapInt_of_lt _ hlo hhi
  rcases lt_or_ge (0 : Int) d.tail with hpos | hle
  · have hfit : ((([] : List Byte).length : Int)) ≤ 16 - d.tail := by
      simp only [List.length_nil, Nat.cast_zero]; omega
    have hne : ¬ ((([] : List Byte).length : Int)) = 16 - d.tail := by
      simp only [List.length_nil, Nat.cast_zero]; omega
    rw [Write_of_fit d [] hpos hfit, hclen]
    simp only [Digest128.fill, if_neg hne]
  · have hz : d.tail = 0 := by omega
    rw [Write_of_tail_zero d [] hz, hclen]
    simp only [Digest128.writeBlocks, bmix_eq, List.length_nil, Nat.zero_div, foldBlocks_zero,
      List.drop_nil, Digest128.keep, Nat.cast_zero, ← hz]

theorem Write_nil_witness :
    (0 ≤ pendingDigest.tail ∧ pendingDigest.tail ≤ 15) ∧ pendingDigest.Write [] = some pendingDigest :=
  ⟨by simp [pendingDigest], Write_nil pendingDigest (by simp [pendingDigest])
    (by simp [pendingDigest]) (by simp [pendingDigest])
    (by simp [pendingDigest])⟩

/-- Claim C18 (reference vector on the tail-only path). `Sum128` of the five
ASCII bytes of "hello" is `(0xcbd8a7b341bd9b02, 0x5b1e906a48ae1d19)`. -/
theorem hello_vector : Sum128 hello = some (0xcbd8a7b341bd9b02, 0x5b1e906a48ae1d19) := by
  with_unfolding_all rfl

/-- Claim C14 (the accumulators are updated only by the block mixer). For
a digest `d` with `0 ≤ d.tail ≤ 15` and a byte sequence `p` with
`d.tail + len(p) < 16`, `d.Write(p)` leaves `h1`, `h2` and `seed` unchanged,
leaves `buf[0..d.tail)` unchanged, stores `p` at
`buf[d.tail .. d.tail + len(p))`, and sets `tail` to `d.tail + len(p)`. -/
theorem Write_frame (d : Digest128) (p : List Byte) (h0 : 0 ≤ d.tail) (h15 : d.tail ≤ 15)
    (hlt : d.tail + (p.length : Int) < 16) :
    ∃ d', d.Write p = some d' ∧ d'.h1 = d.h1 ∧ d'.h2 = d.h2 ∧ d'.seed = d.seed
      ∧ d'.tail = d.tail + (p.length : Int)
      ∧ (∀ i : Fin 16, (i.val : Int) < d.tail → d'.buf i = d.buf i)
      ∧ (∀ (i : Fin 16) (j : Nat), (i.val : Int) = d.tail + (j : Int) → j < p.length →
          p[j]? = some (d'.buf i)) := by
  obtain ⟨d', hw, _, hseed, htail, hh, hpre⟩ :=
    Write_spec d p d.tail.toNat (by omega) (by omega)
  have hsum : d.tail.toNat + p.length < 16 := by omega
  rw [Nat.mod_eq_of_lt hsum] at htail hpre
  rw [Nat.div_eq_of_lt hsum, foldBlocks_zero] at hh
  rw [Nat.div_eq_of_lt hsum, Nat.zero_mul, List.drop_zero] at hpre
  have hl : (prefixOf d.buf d.tail.toNat).length = d.tail.toNat := prefixOf_length _ _
  refine ⟨d', hw, congrArg Prod.fst hh, congrArg Prod.snd hh, hseed, by omega, ?_, ?_⟩
  · intro i hi
    have hi1 : i.val < d.tail.toNat := by omega
    have e1 := prefixOf_getElem? d'.buf i (d.tail.toNat + p.length) (by omega)
    rw [hpre, List.getElem?_append_left (by rw [hl]; exact hi1),
      prefixOf_getElem? d.buf i _ hi1] at e1
    exact (Option.some.inj e1).symm
  · intro i j hij hj
    have hi1 : i.val = d.tail.toNat + j := by omega
    have e1 := prefixOf_getElem? d'.buf i (d.tail.toNat + p.length) (by omega)
    rw [hpre, List.getElem?_append_right (by rw [hl]; omega), hl] at e1
    rw [← e1]
    congr 1
    omega

theorem Write_frame_witness :
    ∃ d', pendingDigest.Write hello = some d' ∧ d'.h1 = pendingDigest.h1
      ∧ d'.h2 = pendingDigest.h2 ∧ d'.seed = pendingDigest.seed
      ∧ d'.tail = pendingDigest.tail + (hello.length : Int)
      ∧ (∀ i : Fin 16, (i.val : Int) < pendingDigest.tail → d'.buf i = pendingDigest.buf i)
      ∧ (∀ (i : Fin 16) (j : Nat), (i.val : Int) = pendingDigest.tail + (j : Int) →
          j < hello.length → hello[j]? = some (d'.buf i)) :=
  Write_frame pendingDigest hello (by simp [pendingDigest]) (by simp [pendingDigest])
    (by simp [pendingDigest, hello])

/-- Claim C12 (the fallthrough switch computes the bounded-loop tail words).
For a digest with `0 ≤ tail ≤ 15`: the `k1` the switch builds is the XOR over
`i` in `0..min(tail,8)-1` of `buf[i] << (8*i)`, and the `k2` it builds is the
XOR over `i` in `8..tail-1` of `buf[i] << (8*(i-8))`; `k1` is mixed
(`*C1`, rotl 31, `*C2`) and XORed into `h1` exactly when `tail ≥ 1`, `k2` is
mixed (`*C2`, rotl 33, `*C1`) and XORed into `h2` exactly when `tail ≥ 9`; for
`tail = 0` neither accumulator changes. -/
theorem tail_switch_loops (d : Digest128) (h0 : 0 ≤ d.tail) (h15 : d.tail ≤ 15) :
    tailWords d.buf (d.tail % 16) = (Ref.loopK1 d.buf d.tail.toNat, Ref.loopK2 d.buf d.tail.toNat)
      ∧ (∀ h1 h2 : Nat, tailSwitch d.buf (d.tail % 16) h1 h2
          = (if 1 ≤ d.tail then h1 ^^^ Ref.mixK1 (tailWords d.buf (d.tail % 16)).1 else h1,
             if 9 ≤ d.tail then h2 ^^^ Ref.mixK2 (tailWords d.buf (d.tail % 16)).2 else h2))
      ∧ (d.tail = 0 → tailSwitch d.buf (d.tail % 16) d.h1 d.h2 = (d.h1, d.h2)) := by
  have ht : d.tail = (d.tail.toNat : Int) := by omega
  have hmod : d.tail % 16 = (d.tail.toNat : Int) := by omega
  have h15' : d.tail.toNat ≤ 15 := by omega
  have c1 : (1 ≤ d.tail) ↔ (1 ≤ d.tail.toNat) := by omega
  have c9 : (9 ≤ d.tail) ↔ (9 ≤ d.tail.toNat) := by omega
  refine ⟨?_, ?_, ?_⟩
  · rw [hmod]
    exact tailWords_eq_loops d.buf _ h15'
  · intro h1 h2
    rw [hmod, tailSwitch_eq_words d.buf _ h15']
    simp only [c1, c9]
  · intro hz
    have hz' : d.tail.toNat = 0 := by omega
    rw [hmod, tailSwitch_eq_words d.buf _ h15', hz']
    simp

theorem tail_switch_loops_witness :
    tailWords pendingDigest.buf (pendingDigest.tail % 16)
        = (Ref.loopK1 pendingDigest.buf pendingDigest.tail.toNat,
           Ref.loopK2 pendingDigest.buf pendingDigest.tail.toNat) :=
  (tail_switch_loops pendingDigest (by simp [pendingDigest]) (by simp [pendingDigest])).1

/-- Claim C15 (stale buffer bytes never influence the hash). If two digests
have the same `h1`, `h2`, `clen` and `tail` (with `0 ≤ tail ≤ 15`) and the same
`buf[i]` for every `i < tail`, then writing any list of chunks to both succeeds
and gives equal `Sum128` results, and the resulting digests again agree on
`h1`, `h2`, `clen`, `tail` and the first `tail` bytes of `buf`. -/
theorem stale_bytes_irrelevant (d e : Digest128) (h : AgreeLive d e) (h0 : 0 ≤ d.tail)
    (h15 : d.tail ≤ 15) (cs : List (List Byte)) :
    ∃ d' e', writeAll d cs = some d' ∧ writeAll e cs = some e'
      ∧ d'.Sum128 = e'.Sum128 ∧ AgreeLive d' e' ∧ 0 ≤ d'.tail ∧ d'.tail ≤ 15 := by
  induction cs generalizing d e with
  | nil => exact ⟨d, e, rfl, rfl, agreeLive_Sum128 d e h h0 h15, h, h0, h15⟩
  | cons c cs ih =>
    obtain ⟨d1, e1, hw, hw', ha, h0', h15'⟩ := agreeLive_Write d e c h h0 h15
    obtain ⟨d2, e2, hw2, hw2', hs, ha2, h02, h152⟩ := ih d1 e1 ha h0' h15'
    refine ⟨d2, e2, ?_, ?_, hs, ha2, h02, h152⟩
    · rw [writeAll, hw]; exact hw2
    · rw [writeAll, hw']; exact hw2'

theorem stale_bytes_irrelevant_witness :
    staleDigest.buf 5 ≠ pendingDigest.buf 5
      ∧ ∃ d' e', writeAll pendingDigest [hello, [], hello, hello] = some d'
      ∧ writeAll staleDigest [hello, [], hello, hello] = some e'
      ∧ d'.Sum128 = e'.Sum128 ∧ AgreeLive d' e' ∧ 0 ≤ d'.tail ∧ d'.tail ≤ 15 :=
  ⟨by decide, stale_bytes_irrelevant pendingDigest staleDigest
    ⟨rfl, rfl, rfl, rfl, by
      intro i hi
      have hi5 : i.val < 5 := by simpa [pendingDigest] using hi
      simp [staleDigest, hi5]⟩
    (by simp [pendingDigest]) (by simp [pendingDigest]) _⟩
/-- Claim C16, as stated, fails once the stream is longer than a Go `int`
can count: after `2^63` one-byte chunks `clen` is `-2^63`, not the length
`2^63` of the concatenation. -/
theorem stream_clen_overflow :
    longStream.flatten.length = 2 ^ 63
      ∧ ∃ d, writeAll (New128WithSeed 0) longStream = some d ∧ d.clen = -2 ^ 63
          ∧ d.clen ≠ (longStream.flatten.length : Int) := by
  have hl : longStream.flatten.length = 2 ^ 63 := length_flatten_replicate _ _
  obtain ⟨d, hw, hr⟩ :=
    writeAll_represents 0 longStream [] (New128WithSeed 0) (represents_new 0)
  have hc : d.clen = -2 ^ 63 := by
    rw [hr.2.2.2.1, List.nil_append, hl]
    exact wrapInt_two_pow
  refine ⟨hl, d, hw, hc, ?_⟩
  rw [hc, hl]
  norm_num

/-- Claim C16 (representation invariant of the stream), amended. For every
seed and list of chunks `cs` with concatenation `D` of length `n`, writing `cs`
in order to `New128WithSeed seed` succeeds and leaves `clen = n` in Go `int`
arithmetic (exactly `n` when `n < 2^63`, its two's-complement wrap otherwise),
`tail = n mod 16`, `buf[0..tail)` equal to the last `n mod 16` bytes of `D`,
and `(h1, h2)` equal to the block transform folded from `(seed, seed)` over
the first `n / 16` 16-byte blocks of `D`. -/
theorem stream_invariant (seed : Nat) (cs : List (List Byte)) :
    ∃ d, writeAll (New128WithSeed seed) cs = some d
      ∧ d.clen = wrapInt (cs.flatten.length : Int)
      ∧ (cs.flatten.length < 2 ^ 63 → d.clen = (cs.flatten.length : Int))
      ∧ d.tail = ((cs.flatten.length % 16 : Nat) : Int)
      ∧ prefixOf d.buf (cs.flatten.length % 16)
          = cs.flatten.drop (cs.flatten.length / 16 * 16)
      ∧ (prefixOf d.buf (cs.flatten.length % 16)).length = cs.flatten.length % 16
      ∧ (d.h1, d.h2) = Ref.foldBlocks (cs.flatten.length / 16) (seed, seed) cs.flatten := by
  obtain ⟨d, hw, hr⟩ :=
    writeAll_represents seed cs [] (New128WithSeed seed) (represents_new seed)
  rw [List.nil_append] at hr
  obtain ⟨htail, hpre, hh, hclen, _⟩ := hr
  refine ⟨d, hw, hclen, ?_, htail, hpre, prefixOf_length _ _, hh⟩
  intro hlt
  rw [hclen]
  exact wrapInt_of_lt _ (by omega) (by exact_mod_cast hlt)

theorem stream_invariant_witness :
    ∃ d, writeAll (New128WithSeed 7) [hello, [], hello] = some d
      ∧ d.clen = wrapInt (([hello, [], hello] : List (List Byte)).flatten.length : Int)
      ∧ (([hello, [], hello] : List (List Byte)).flatten.length < 2 ^ 63 →
          d.clen = (([hello, [], hello] : List (List Byte)).flatten.length : Int))
      ∧ d.tail = ((([hello, [], hello] : List (List Byte)).flatten.length % 16 : Nat) : Int)
      ∧ prefixOf d.buf (([hello, [], hello] : List (List Byte)).flatten.length % 16)
          = ([hello, [], hello] : List (List Byte)).flatten.drop
              (([hello, [], hello] : List (List Byte)).flatten.length / 16 * 16)
      ∧ (prefixOf d.buf (([hello, [], hello] : List (List Byte)).flatten.length % 16)).length
          = ([hello, [], hello] : List (List Byte)).flatten.length % 16
      ∧ (d.h1, d.h2)
          = Ref.foldBlocks (([hello, [], hello] : List (List Byte)).flatten.length / 16) (7, 7)
              ([hello, [], hello] : List (List Byte)).flatten :=
  stream_invariant 7 [hello, [], hello]
/-- Claim C17 (no collisions among equal-length short inputs). For every
32-bit seed, every length `n ≤ 16` and byte sequences `a`, `b` of length `n`:
if `Sum128WithSeed a seed = Sum128WithSeed b seed` then `a = b`. -/
theorem short_inputs_injective (seed n : Nat) (a b : List Byte) (hseed : seed < 2 ^ 32)
    (hn : n ≤ 16) (ha : a.length = n) (hb : b.length = n)
    (e : Sum128WithSeed a seed = Sum128WithSeed b seed) : a = b := by
  rw [Sum128WithSeed_eq_sum128, Sum128WithSeed_eq_sum128] at e
  have e' := Option.some.inj e
  simp only [Ref.sum128, ha, hb] at e'
  have hs : seed < 2 ^ 64 := Nat.lt_of_lt_of_le hseed (by norm_num)
  rcases Nat.lt_or_ge n 16 with hlt | hge
  · rw [Nat.div_eq_of_lt hlt, foldBlocks_zero, foldBlocks_zero, Nat.zero_mul, List.drop_zero,
      List.drop_zero] at e'
    have m := finalize_inj _ _ _ _ _ (tailMix_lt _ hs hs a) (tailMix_lt _ hs hs b) e'
    exact tailMix_inj _ a b (by rw [ha, hb]) (by omega) m
  · have h16 : n = 16 := by omega
    subst h16
    have hd : (16 : Nat) / 16 = 0 + 1 := by norm_num
    rw [hd, foldBlocks_succ, foldBlocks_succ, foldBlocks_zero, foldBlocks_zero,
      List.take_of_length_le (by omega), List.take_of_length_le (by omega),
      List.drop_of_length_le (by omega), List.drop_of_length_le (by omega)] at e'
    have bw : ∀ x : List Byte, (Ref.blockTransform (seed, seed) x).1 < 2 ^ 64
        ∧ (Ref.blockTransform (seed, seed) x).2 < 2 ^ 64 := by
      intro x
      simp only [Ref.blockTransform]
      exact blockWords_lt _ _ _
    have m := finalize_inj _ _ _ _ _ (tailMix_lt _ (bw a).1 (bw a).2 [])
      (tailMix_lt _ (bw b).1 (bw b).2 []) e'
    rw [tailMix_nil, tailMix_nil] at m
    exact blockTransform_inj _ hs hs a b ha hb m

theorem short_inputs_injective_witness :
    ((0 : Nat) < 2 ^ 32 ∧ (5 : Nat) ≤ 16 ∧ hello.length = 5
        ∧ Sum128WithSeed hello 0 = Sum128WithSeed hello 0)
      ∧ hello = hello :=
  ⟨⟨by norm_num, by norm_num, rfl, rfl⟩,
   short_inputs_injective 0 5 hello hello (by norm_num) (by norm_num) rfl rfl rfl⟩
/-- Claim C19 (`fmix64` is a bijection on 64-bit words that fixes zero).
For 64-bit words `x`, `y`: `fmix64 x = fmix64 y` implies `x = y`; every 64-bit
word is `fmix64` of some 64-bit word; and `fmix64 0 = 0`. -/
theorem fmix64_bijective :
    (∀ x y : Nat, x < 2 ^ 64 → y < 2 ^ 64 → fmix64 x = fmix64 y → x = y)
      ∧ (∀ y : Nat, y < 2 ^ 64 → ∃ x : Nat, x < 2 ^ 64 ∧ fmix64 x = y)
      ∧ fmix64 0 = 0 := by
  refine ⟨fmix64_inj, ?_, by with_unfolding_all rfl⟩
  intro y hy
  have hinj : Function.Injective
      (fun x : Fin (2 ^ 64) => (⟨fmix64 x.val, fmix64_lt x.val⟩ : Fin (2 ^ 64))) := by
    intro a b hab
    exact Fin.ext (fmix64_inj a.val b.val a.isLt b.isLt (congrArg Fin.val hab))
  obtain ⟨x, hx⟩ := (Finite.injective_iff_surjective.mp hinj) ⟨y, hy⟩
  exact ⟨x.val, x.isLt, congrArg Fin.val hx⟩

theorem fmix64_bijective_witness :
    (fmix64 1 = fmix64 1 → (1 : Nat) = 1) ∧ ∃ x : Nat, x < 2 ^ 64 ∧ fmix64 x = 12345 :=
  ⟨fmix64_bijective.1 1 1 (by norm_num) (by norm_num),
   fmix64_bijective.2.1 12345 (by norm_num)⟩

end Murmur3
